import Mathlib

/-!
Verification of the taskflow action-engine analyzer, runtime and graph-flow
pattern against their natural-language specification.

The Python sources embedded here are:
* `taskflow/engines/action_engine/analyzer.py` (class `Analyzer`)
* `taskflow/engines/action_engine/runtime.py` (class `Runtime`)
* `taskflow/patterns/graph_flow.py` (class `Flow`)

Modules that the sampled source imports but that are not part of the sample
(`taskflow/engines/action_engine/traversal.py`, `deciders.py`, `states.py`,
`compiler.py`, and networkx helpers) are modelled from the specification; each
such definition carries a doc comment starting with `Modelled from the spec:`.
-/

namespace Taskflow

/-- Atom states and intentions, as in `taskflow.states` (module not sampled;
the constant names are fixed by the spec's data model section). A single type
carries both states and intentions, mirroring the Python string constants. -/
inductive St where
  | PENDING
  | RUNNING
  | SUCCESS
  | FAILURE
  | REVERTING
  | REVERTED
  | RETRYING
  | IGNORE
  | EXECUTE
  | REVERT
  | RETRY
deriving DecidableEq, Repr

/-- Node kinds in the compiled execution graph, as in
`taskflow.engines.action_engine.compiler` (`TASK`, `RETRY`, `FLOW`). -/
inductive Kind where
  | TASK
  | RETRY
  | FLOW
deriving DecidableEq, Repr

/-- Graph nodes are identified by their (unique) name. -/
abbrev Node := Nat

/-- The compiled execution graph: nodes tagged with their kind, directed
edges, and the `LINK_DECIDER` metadata optionally attached to an edge
(deciders are identified by a numeric id). -/
structure Graph where
  nodes : List (Node × Kind)
  edges : List (Node × Node)
  ldeciders : List (Node × Node × Nat)
deriving Repr

namespace Graph

/-- Kind of a node (`graph.node[n]['kind']`); `none` when the node is absent. -/
def kindOf (g : Graph) (n : Node) : Option Kind :=
  (g.nodes.find? (fun p => p.1 == n)).map (·.2)

/-- Direct successors of a node (`graph.successors_iter`). -/
def succs (g : Graph) (n : Node) : List Node :=
  (g.edges.filter (fun e => e.1 == n)).map (·.2)

/-- Direct predecessors of a node (`graph.predecessors_iter`). -/
def preds (g : Graph) (n : Node) : List Node :=
  (g.edges.filter (fun e => e.2 == n)).map (·.1)

/-- The `LINK_DECIDER` attached to edge `u → v`
(`graph.adj[u][v][LINK_DECIDER]`), if any. -/
def deciderOf (g : Graph) (u v : Node) : Option Nat :=
  (g.ldeciders.find? (fun t => t.1 == u && t.2.1 == v)).map (·.2.2)

/-- True on nodes of atom kind (`TASK` or `RETRY`); flow markers and unknown
nodes are excluded. -/
def isAtomNode (g : Graph) (n : Node) : Bool :=
  match g.kindOf n with
  | some Kind.TASK => true
  | some Kind.RETRY => true
  | _ => false

end Graph

/-! ### Generic worklist closure over an edge list

Used to give executable meaning to "all nodes reachable (forward/backward)
from a node", which the traversal helpers of the engine compute. -/

/-- Nodes adjacent to `n` along the edge list (targets of edges out of `n`). -/
def adjacents {α : Type} [DecidableEq α] (es : List (α × α)) (n : α) : List α :=
  (es.filter (fun e => e.1 == n)).map (·.2)

/-- All endpoints occurring in the edge list; a superset of anything
`adjacents` can produce. -/
def edgeNodes {α : Type} (es : List (α × α)) : List α :=
  es.map (·.1) ++ es.map (·.2)

/-- One-step adjacency as a relation. -/
def AdjRel {α : Type} (es : List (α × α)) (a b : α) : Prop :=
  (a, b) ∈ es

theorem mem_adjacents {α : Type} [DecidableEq α] {es : List (α × α)} {a b : α} :
    b ∈ adjacents es a ↔ AdjRel es a b := by
  unfold adjacents AdjRel
  simp only [List.mem_map, List.mem_filter, beq_iff_eq]
  constructor
  · rintro ⟨⟨x, y⟩, ⟨hmem, hx⟩, hy⟩
    simp only at hx hy
    subst hx; subst hy; exact hmem
  · intro h
    exact ⟨(a, b), ⟨h, rfl⟩, rfl⟩

theorem mem_edgeNodes_of_adj {α : Type} [DecidableEq α] {es : List (α × α)} {a b : α}
    (h : b ∈ adjacents es a) : b ∈ edgeNodes es := by
  unfold edgeNodes
  rw [mem_adjacents] at h
  exact List.mem_append_right _ (List.mem_map.mpr ⟨(a, b), h, rfl⟩)

/-- Helper: a filter with a strictly stronger predicate that loses at least
one element is strictly shorter. -/
theorem length_filter_lt_of_strict {α : Type} (l : List α) (p q : α → Bool)
    (hpq : ∀ a, q a = true → p a = true)
    (x : α) (hx : x ∈ l) (hpx : p x = true) (hqx : q x = false) :
    (l.filter q).length < (l.filter p).length := by
  induction l with
  | nil => cases hx
  | cons a t ih =>
    rcases List.mem_cons.mp hx with h | h
    · subst h
      simp only [List.filter_cons, hpx, hqx, if_true, if_false]
      exact Nat.lt_succ_of_le ((List.monotone_filter_right t hpq).length_le)
    · by_cases hqa : q a = true
      · have hpa := hpq a hqa
        simp only [List.filter_cons, hqa, hpa, if_true]
        exact Nat.succ_lt_succ (ih h)
      · have hqa' : q a = false := Bool.eq_false_iff.mpr hqa
        simp only [List.filter_cons, hqa', if_false]
        by_cases hpa : p a = true
        · simp only [hpa, if_true]
          exact Nat.lt_succ_of_lt (ih h)
        · have hpa' : p a = false := Bool.eq_false_iff.mpr hpa
          simp only [hpa', if_false]
          exact ih h

/-- The termination measure of the worklist closure: the count of edge
endpoints not yet visited. -/
def closMeasure {α : Type} [DecidableEq α] (es : List (α × α)) (visited : List α) : Nat :=
  ((edgeNodes es).filter (fun m => !(decide (m ∈ visited)))).length

theorem closMeasure_mono {α : Type} [DecidableEq α] (es : List (α × α)) (n : α) (visited : List α) :
    closMeasure es (n :: visited) ≤ closMeasure es visited := by
  apply List.Sublist.length_le
  apply List.monotone_filter_right
  intro a ha
  simp only [Bool.not_eq_true', decide_eq_false_iff_not, List.mem_cons, not_or] at ha ⊢
  exact ha.2

theorem closMeasure_lt {α : Type} [DecidableEq α] (es : List (α × α)) (n : α) (visited : List α)
    (hU : n ∈ edgeNodes es) (hv : n ∉ visited) :
    closMeasure es (n :: visited) < closMeasure es visited := by
  apply length_filter_lt_of_strict (edgeNodes es)
    (fun m => !(decide (m ∈ visited))) (fun m => !(decide (m ∈ n :: visited)))
    ?imp n hU ?hp ?hq
  case imp =>
    intro a ha
    simp only [Bool.not_eq_true', decide_eq_false_iff_not, List.mem_cons, not_or] at ha ⊢
    exact ha.2
  case hp => simp [hv]
  case hq => simp

/-- Worklist closure: repeatedly pop a node; unvisited nodes are recorded and
their adjacents enqueued. The `n ∈ edgeNodes es` guard only skips expanding
nodes whose adjacency is empty anyway (it keeps the recursion well founded). -/
def closAux {α : Type} [DecidableEq α] (es : List (α × α)) : List α → List α → List α
  | [], visited => visited
  | n :: rest, visited =>
    if n ∈ visited then closAux es rest visited
    else if n ∈ edgeNodes es then closAux es (adjacents es n ++ rest) (n :: visited)
    else closAux es rest (n :: visited)
termination_by wl visited => (closMeasure es visited, wl.length)
decreasing_by
  · apply Prod.Lex.right
    exact Nat.lt_succ_self _
  · apply Prod.Lex.left
    exact closMeasure_lt es n visited ‹n ∈ edgeNodes es› ‹n ∉ visited›
  · apply Prod.Lex.right'
    · exact closMeasure_mono es n visited
    · exact Nat.lt_succ_self _

/-- Every node reachable along `es` from some node of `frontier`
(reflexive-transitive from the frontier itself). -/
def closureFrom {α : Type} [DecidableEq α] (es : List (α × α)) (frontier : List α) : List α :=
  closAux es frontier []

theorem adjacents_eq_nil {α : Type} [DecidableEq α] {es : List (α × α)} {n : α}
    (h : n ∉ edgeNodes es) : adjacents es n = [] := by
  cases hadj : adjacents es n with
  | nil => rfl
  | cons b t =>
    exfalso
    have hb : b ∈ adjacents es n := hadj ▸ List.mem_cons_self b t
    rw [mem_adjacents] at hb
    exact h (List.mem_append_left _ (List.mem_map.mpr ⟨(n, b), hb, rfl⟩))

theorem visited_subset_closAux {α : Type} [DecidableEq α] (es : List (α × α)) :
    ∀ wl vis, vis ⊆ closAux es wl vis := by
  intro wl vis
  induction wl, vis using closAux.induct es with
  | case1 vis => simp [closAux]
  | case2 n rest vis hmem ih =>
    rw [closAux, if_pos hmem]
    exact ih
  | case3 n rest vis hmem hU ih =>
    rw [closAux, if_neg hmem, if_pos hU]
    exact fun x hx => ih (List.mem_cons_of_mem n hx)
  | case4 n rest vis hmem hU ih =>
    rw [closAux, if_neg hmem, if_neg hU]
    exact fun x hx => ih (List.mem_cons_of_mem n hx)

theorem worklist_subset_closAux {α : Type} [DecidableEq α] (es : List (α × α)) :
    ∀ wl vis, ∀ n ∈ wl, n ∈ closAux es wl vis := by
  intro wl vis
  induction wl, vis using closAux.induct es with
  | case1 vis => intro n hn; cases hn
  | case2 n rest vis hmem ih =>
    intro m hm
    rw [closAux, if_pos hmem]
    rcases List.mem_cons.mp hm with h | h
    · exact h ▸ visited_subset_closAux es rest vis hmem
    · exact ih m h
  | case3 n rest vis hmem hU ih =>
    intro m hm
    rw [closAux, if_neg hmem, if_pos hU]
    rcases List.mem_cons.mp hm with h | h
    · rw [h]
      exact visited_subset_closAux es _ _ (List.mem_cons_self n vis)
    · exact ih m (List.mem_append_right _ h)
  | case4 n rest vis hmem hU ih =>
    intro m hm
    rw [closAux, if_neg hmem, if_neg hU]
    rcases List.mem_cons.mp hm with h | h
    · rw [h]
      exact visited_subset_closAux es _ _ (List.mem_cons_self n vis)
    · exact ih m h

theorem closAux_sound {α : Type} [DecidableEq α] (es : List (α × α)) :
    ∀ wl vis, ∀ m ∈ closAux es wl vis,
      m ∈ vis ∨ ∃ f ∈ wl, Relation.ReflTransGen (AdjRel es) f m := by
  intro wl vis
  induction wl, vis using closAux.induct es with
  | case1 vis =>
    intro m hm
    rw [closAux] at hm
    exact Or.inl hm
  | case2 n rest vis hmem ih =>
    intro m hm
    rw [closAux, if_pos hmem] at hm
    rcases ih m hm with h | ⟨f, hf, hp⟩
    · exact Or.inl h
    · exact Or.inr ⟨f, List.mem_cons_of_mem n hf, hp⟩
  | case3 n rest vis hmem hU ih =>
    intro m hm
    rw [closAux, if_neg hmem, if_pos hU] at hm
    rcases ih m hm with h | ⟨f, hf, hp⟩
    · rcases List.mem_cons.mp h with h | h
      · exact Or.inr ⟨n, List.mem_cons_self n rest, h ▸ Relation.ReflTransGen.refl⟩
      · exact Or.inl h
    · rcases List.mem_append.mp hf with h | h
      · exact Or.inr ⟨n, List.mem_cons_self n rest,
          Relation.ReflTransGen.head (mem_adjacents.mp h) hp⟩
      · exact Or.inr ⟨f, List.mem_cons_of_mem n h, hp⟩
  | case4 n rest vis hmem hU ih =>
    intro m hm
    rw [closAux, if_neg hmem, if_neg hU] at hm
    rcases ih m hm with h | ⟨f, hf, hp⟩
    · rcases List.mem_cons.mp h with h | h
      · exact Or.inr ⟨n, List.mem_cons_self n rest, h ▸ Relation.ReflTransGen.refl⟩
      · exact Or.inl h
    · exact Or.inr ⟨f, List.mem_cons_of_mem n hf, hp⟩

/-- Invariant of the worklist loop: every visited node has all of its
adjacents either visited or still enqueued. -/
def Expanded {α : Type} [DecidableEq α] (es : List (α × α)) (wl vis : List α) : Prop :=
  ∀ v ∈ vis, ∀ w ∈ adjacents es v, w ∈ vis ∨ w ∈ wl

theorem closAux_closed {α : Type} [DecidableEq α] (es : List (α × α)) :
    ∀ wl vis, Expanded es wl vis →
      ∀ v ∈ closAux es wl vis, ∀ w ∈ adjacents es v, w ∈ closAux es wl vis := by
  intro wl vis
  induction wl, vis using closAux.induct es with
  | case1 vis =>
    intro hexp v hv w hw
    rw [closAux] at hv ⊢
    rcases hexp v hv w hw with h | h
    · exact h
    · cases h
  | case2 n rest vis hmem ih =>
    intro hexp v hv w hw
    rw [closAux, if_pos hmem] at hv ⊢
    refine ih ?_ v hv w hw
    intro x hx y hy
    rcases hexp x hx y hy with h | h
    · exact Or.inl h
    · rcases List.mem_cons.mp h with h | h
      · exact Or.inl (h ▸ hmem)
      · exact Or.inr h
  | case3 n rest vis hmem hU ih =>
    intro hexp v hv w hw
    rw [closAux, if_neg hmem, if_pos hU] at hv ⊢
    refine ih ?_ v hv w hw
    intro x hx y hy
    rcases List.mem_cons.mp hx with h | h
    · exact Or.inr (List.mem_append_left _ (h ▸ hy))
    · rcases hexp x h y hy with h' | h'
      · exact Or.inl (List.mem_cons_of_mem n h')
      · rcases List.mem_cons.mp h' with h' | h'
        · exact Or.inl (h' ▸ List.mem_cons_self n vis)
        · exact Or.inr (List.mem_append_right _ h')
  | case4 n rest vis hmem hU ih =>
    intro hexp v hv w hw
    rw [closAux, if_neg hmem, if_neg hU] at hv ⊢
    refine ih ?_ v hv w hw
    intro x hx y hy
    rcases List.mem_cons.mp hx with h | h
    · exact absurd hy (by rw [h, adjacents_eq_nil hU]; exact List.not_mem_nil y)
    · rcases hexp x h y hy with h' | h'
      · exact Or.inl (List.mem_cons_of_mem n h')
      · rcases List.mem_cons.mp h' with h' | h'
        · exact Or.inl (h' ▸ List.mem_cons_self n vis)
        · exact Or.inr h'

theorem closAux_complete {α : Type} [DecidableEq α] (es : List (α × α)) (wl vis : List α)
    (hexp : Expanded es wl vis) {f m : α} (hf : f ∈ wl)
    (h : Relation.ReflTransGen (AdjRel es) f m) :
    m ∈ closAux es wl vis := by
  induction h with
  | refl => exact worklist_subset_closAux es wl vis f hf
  | tail hab hbc ih =>
    exact closAux_closed es wl vis hexp _ ih _ (mem_adjacents.mpr hbc)

/-- Characterization of the worklist closure: a node is collected iff it is
reachable (in zero or more adjacency steps) from some frontier node. -/
theorem mem_closureFrom {α : Type} [DecidableEq α] {es : List (α × α)} {frontier : List α} {m : α} :
    m ∈ closureFrom es frontier ↔
      ∃ f ∈ frontier, Relation.ReflTransGen (AdjRel es) f m := by
  constructor
  · intro h
    rcases closAux_sound es frontier [] m h with h' | h'
    · cases h'
    · exact h'
  · rintro ⟨f, hf, hp⟩
    exact closAux_complete es frontier [] (fun v hv => absurd hv (List.not_mem_nil v)) hf hp

/-! ### Storage, deciders and traversal -/

/-- The storage snapshot the analyzer reads: per-atom state and intention
(`storage.get_atom_state` / `storage.get_atom_intention`). -/
structure Storage where
  state : Node → St
  intention : Node → St

def Storage.get_atom_state (s : Storage) (n : Node) : St := s.state n

def Storage.get_atom_intention (s : Storage) (n : Node) : St := s.intention n

/-- Traversal direction, as in `taskflow.engines.action_engine.traversal`. -/
inductive Direction where
  | FORWARD
  | BACKWARD
deriving DecidableEq, Repr

/-- The edge list oriented along the traversal direction. -/
def dirEdges (g : Graph) : Direction → List (Node × Node)
  | Direction.FORWARD => g.edges
  | Direction.BACKWARD => g.edges.map (fun e => (e.2, e.1))

/-- One directed step along the traversal direction. -/
def dirRel (g : Graph) : Direction → Node → Node → Prop
  | Direction.FORWARD => fun x y => (x, y) ∈ g.edges
  | Direction.BACKWARD => fun x y => (y, x) ∈ g.edges

theorem adjRel_dirEdges (g : Graph) (d : Direction) (x y : Node) :
    AdjRel (dirEdges g d) x y ↔ dirRel g d x y := by
  cases d with
  | FORWARD => exact Iff.rfl
  | BACKWARD =>
    unfold AdjRel dirEdges dirRel
    simp only [List.mem_map, Prod.mk.injEq, Prod.exists]
    constructor
    · rintro ⟨a, b, hab, hx, hy⟩
      rw [← hx, ← hy]
      exact hab
    · intro h
      exact ⟨y, x, h, rfl, rfl⟩

/-- Modelled from the spec: `taskflow.engines.action_engine.traversal`'s
`depth_first_iterate` (the traversal module is not in the sampled source).
It yields every atom node reachable from the starting node's neighbors in the
given direction, walking transparently through flow markers and through other
atoms; flow markers themselves are not yielded. -/
def depth_first_iterate (g : Graph) (atom : Node) (d : Direction) : List Node :=
  let es := dirEdges g d
  (closureFrom es (adjacents es atom)).filter (fun n => g.isAtomNode n)

/-- `b` lies strictly backward of `a` in the graph: there is a nonempty
path of edges leading from `b` into `a`. -/
def ReachableBack (g : Graph) (a b : Node) : Prop :=
  Relation.TransGen (dirRel g Direction.BACKWARD) a b

/-- `b` lies strictly forward of `a` in the graph: there is a nonempty path
of edges from `a` to `b`. -/
def ReachableFwd (g : Graph) (a b : Node) : Prop :=
  Relation.TransGen (dirRel g Direction.FORWARD) a b

theorem mem_depth_first_iterate {g : Graph} {atom : Node} {d : Direction} {b : Node} :
    b ∈ depth_first_iterate g atom d ↔
      Relation.TransGen (dirRel g d) atom b ∧ g.isAtomNode b = true := by
  unfold depth_first_iterate
  rw [List.mem_filter, mem_closureFrom]
  constructor
  · rintro ⟨⟨f, hf, hp⟩, hatom⟩
    refine ⟨?_, hatom⟩
    rw [mem_adjacents, adjRel_dirEdges] at hf
    exact Relation.TransGen.head'_iff.mpr ⟨f, hf, by
      refine Relation.ReflTransGen.mono ?_ hp
      intro x y hxy
      exact (adjRel_dirEdges g d x y).mp hxy⟩
  · rintro ⟨hreach, hatom⟩
    refine ⟨?_, hatom⟩
    rcases Relation.TransGen.head'_iff.mp hreach with ⟨f, hstep, hp⟩
    refine ⟨f, ?_, ?_⟩
    · rw [mem_adjacents, adjRel_dirEdges]
      exact hstep
    · refine Relation.ReflTransGen.mono ?_ hp
      intro x y hxy
      exact (adjRel_dirEdges g d x y).mpr hxy

/-! ### Edge decider collection (`Runtime._walk_edge_deciders`) -/

/-- The neighbors-of-a-flow measure used to show the decider walk terminates:
the number of unvisited flow nodes. -/
def flowMeasure (g : Graph) (visited : List Node) : Nat :=
  (((g.nodes.filter (fun p => p.2 == Kind.FLOW)).map (·.1)).filter
    (fun m => !(decide (m ∈ visited)))).length

theorem mem_flowNodes_of_kindOf {g : Graph} {u : Node}
    (h : g.kindOf u = some Kind.FLOW) :
    u ∈ (g.nodes.filter (fun p => p.2 == Kind.FLOW)).map (·.1) := by
  unfold Graph.kindOf at h
  cases hfind : g.nodes.find? (fun p => p.1 == u) with
  | none => rw [hfind] at h; cases h
  | some p =>
    rw [hfind] at h
    simp only [Option.map_some', Option.some.injEq] at h
    have hmem := List.mem_of_find?_eq_some hfind
    have hp := List.find?_some hfind
    simp only [beq_iff_eq] at hp
    refine List.mem_map.mpr ⟨p, List.mem_filter.mpr ⟨hmem, ?_⟩, hp⟩
    simp [h]

theorem flowMeasure_mono (g : Graph) (u : Node) (visited : List Node) :
    flowMeasure g (u :: visited) ≤ flowMeasure g visited := by
  apply List.Sublist.length_le
  apply List.monotone_filter_right
  intro a ha
  simp only [Bool.not_eq_true', decide_eq_false_iff_not, List.mem_cons, not_or] at ha ⊢
  exact ha.2

theorem flowMeasure_lt (g : Graph) (u : Node) (visited : List Node)
    (hk : g.kindOf u = some Kind.FLOW) (hv : u ∉ visited) :
    flowMeasure g (u :: visited) < flowMeasure g visited := by
  apply length_filter_lt_of_strict _
    (fun m => !(decide (m ∈ visited))) (fun m => !(decide (m ∈ u :: visited)))
    ?imp u (mem_flowNodes_of_kindOf hk) ?hp ?hq
  case imp =>
    intro a ha
    simp only [Bool.not_eq_true', decide_eq_false_iff_not, List.mem_cons, not_or] at ha ⊢
    exact ha.2
  case hp => simp [hv]
  case hq => simp

theorem length_preds_le (g : Graph) (u : Node) :
    (g.preds u).length ≤ g.edges.length := by
  unfold Graph.preds
  rw [List.length_map]
  exact List.length_filter_le _ _

/-- The core loop of `Runtime._walk_edge_deciders`: a reverse breadth-first
walk over `(u, v)` node pairs that yields the pair of every traversed edge
carrying a `LINK_DECIDER`, and expands the predecessors of each flow marker
node the first time that flow is reached. -/
def walkAux (g : Graph) : List (Node × Node) → List Node → List (Node × Node)
  | [], _ => []
  | (u, v) :: rest, visited =>
    let keep := match g.deciderOf u v with
      | some _ => [(u, v)]
      | none => []
    if h : g.kindOf u = some Kind.FLOW ∧ u ∉ visited then
      keep ++ walkAux g (rest ++ (g.preds u).map (fun w => (w, u))) (u :: visited)
    else
      keep ++ walkAux g rest visited
termination_by wl visited =>
  flowMeasure g visited * (g.edges.length + 1) + wl.length
decreasing_by
  · have h1 : flowMeasure g (u :: visited) + 1 ≤ flowMeasure g visited :=
      flowMeasure_lt g u visited h.1 h.2
    have h2 : (rest ++ (g.preds u).map (fun w => (w, u))).length ≤
        rest.length + g.edges.length := by
      rw [List.length_append, List.length_map]
      exact Nat.add_le_add_left (length_preds_le g u) _
    calc flowMeasure g (u :: visited) * (g.edges.length + 1) +
          (rest ++ (g.preds u).map (fun w => (w, u))).length
        ≤ flowMeasure g (u :: visited) * (g.edges.length + 1) +
          (rest.length + g.edges.length) := Nat.add_le_add_left h2 _
      _ < (flowMeasure g (u :: visited) + 1) * (g.edges.length + 1) + rest.length := by
          rw [Nat.succ_mul]
          omega
      _ ≤ flowMeasure g visited * (g.edges.length + 1) + rest.length :=
          Nat.add_le_add_right (Nat.mul_le_mul_right _ h1) _
      _ < flowMeasure g visited * (g.edges.length + 1) + ((u, v) :: rest).length := by
          simp [Nat.lt_succ_self]
  · have := flowMeasure_mono g u visited
    have h2 : rest.length < ((u, v) :: rest).length := by simp [Nat.lt_succ_self]
    exact Nat.add_lt_add_of_le_of_lt (Nat.le_refl _) h2

/-- `Runtime._walk_edge_deciders(graph, atom)`: yields
`(u_node, u_node_kind, decider)` for every decider-carrying edge found by the
reverse walk that starts from the direct predecessors of `atom` and jumps
through flow marker nodes. -/
def walk_edge_deciders (g : Graph) (atom : Node) : List (Node × Option Kind × Nat) :=
  (walkAux g ((g.preds atom).map (fun u => (u, atom))) []).filterMap
    (fun p => (g.deciderOf p.1 p.2).map (fun d => (p.1, g.kindOf p.1, d)))

/-- Modelled from the spec: the two decider kinds of
`taskflow.engines.action_engine.deciders` (module not in the sampled source).
`IgnoreDecider` is built from the atom and its collected edge deciders;
`NoOpDecider` always allows. -/
inductive Decider where
  | NoOpDecider : Decider
  | IgnoreDecider (atom : Node) (edge_deciders : List (Node × Option Kind × Nat)) : Decider
deriving DecidableEq, Repr

/-! ### The runtime environment and the analyzer -/

/-- The runtime pieces the analyzer consumes: the compiled execution graph,
the storage snapshot, and the per-atom transition checker behind
`Runtime.check_atom_transition` (the per-kind checkers live in
`taskflow.states`, outside the sampled source, so the checker stays an
abstract component). -/
structure Env where
  graph : Graph
  storage : Storage
  check_transition : Node → St → St → Bool

/-- `Runtime.check_atom_transition(atom, current_state, target_state)`. -/
def Env.check_atom_transition (env : Env) (atom : Node) (cur target : St) : Bool :=
  env.check_transition atom cur target

/-- `Runtime.fetch_edge_deciders(atom)`: the runtime caches
`tuple(Runtime._walk_edge_deciders(graph, atom))` as the atom's
`edge_deciders` metadata during `compile()` and returns it here; the cache is
modelled as recomputation. -/
def fetch_edge_deciders (env : Env) (atom : Node) : List (Node × Option Kind × Nat) :=
  walk_edge_deciders env.graph atom

/-- `Analyzer._get_maybe_ready`: the shared readiness scaffold. -/
def get_maybe_ready (env : Env) (atom : Node) (transition_to : St)
    (allowed_intentions : List St) (connected : List Node)
    (ready_checker : List (Node × St × St) → Bool) (decider : Decider) :
    Bool × Option Decider :=
  let state := env.storage.get_atom_state atom
  let ok_to_transition := env.check_atom_transition atom state transition_to
  if ¬ (ok_to_transition = true) then (false, none)
  else
    let intention := env.storage.get_atom_intention atom
    if ¬ (intention ∈ allowed_intentions) then (false, none)
    else
      let connected_states := connected.map (fun a =>
        (a, env.storage.get_atom_state a, env.storage.get_atom_intention a))
      if ¬ (ready_checker connected_states = true) then (false, none)
      else (true, some decider)

/-- The `ready_checker` closure of `Analyzer._get_maybe_ready_for_execute`:
every connected entry must have state `SUCCESS`/`IGNORE` and intention
`EXECUTE`/`IGNORE`. -/
def execReadyChecker (l : List (Node × St × St)) : Bool :=
  l.all (fun p =>
    (p.2.1 == St.SUCCESS || p.2.1 == St.IGNORE) &&
    (p.2.2 == St.EXECUTE || p.2.2 == St.IGNORE))

/-- The `ready_checker` closure of `Analyzer._get_maybe_ready_for_revert`:
every connected entry must have state `PENDING`/`REVERTED`/`IGNORE`. -/
def revertReadyChecker (l : List (Node × St × St)) : Bool :=
  l.all (fun p =>
    p.2.1 == St.PENDING || p.2.1 == St.REVERTED || p.2.1 == St.IGNORE)

/-- `Analyzer._get_maybe_ready_for_execute(atom)`. -/
def get_maybe_ready_for_execute (env : Env) (atom : Node) : Bool × Option Decider :=
  get_maybe_ready env atom St.RUNNING [St.EXECUTE]
    (depth_first_iterate env.graph atom Direction.BACKWARD)
    execReadyChecker
    (Decider.IgnoreDecider atom (fetch_edge_deciders env atom))

/-- `Analyzer._get_maybe_ready_for_revert(atom)`. -/
def get_maybe_ready_for_revert (env : Env) (atom : Node) : Bool × Option Decider :=
  get_maybe_ready env atom St.REVERTING [St.REVERT, St.RETRY]
    (depth_first_iterate env.graph atom Direction.FORWARD)
    revertReadyChecker
    Decider.NoOpDecider

/-- `co.ATOMS`: the atom node kinds (`TASK`, `RETRY`). -/
def ATOMS : List Kind := [Kind.TASK, Kind.RETRY]

/-- `Analyzer.iterate_nodes(allowed_kinds)`: graph nodes of the allowed
kinds, in node order. -/
def iterate_nodes (g : Graph) (allowed_kinds : List Kind) : List Node :=
  (g.nodes.filter (fun p => p.2 ∈ allowed_kinds)).map (·.1)

/-- `Analyzer.is_success()`: every atom is `IGNORE` (skipped) or `SUCCESS`. -/
def is_success (env : Env) : Bool :=
  (iterate_nodes env.graph ATOMS).all (fun a =>
    let s := env.storage.get_atom_state a
    s == St.IGNORE || s == St.SUCCESS)

/-! ### Breadth-first traversal (`traversal.breadth_first_iterate`) -/

/-- Modelled from the spec: which node kinds the breadth-first walk expands
through. Flow markers and tasks are always walked through; retry nodes are
walked through only when `thrRetries` is set (`through_retries`), so that a
retry boundary stops predecessor exploration. -/
def bfsExpandable (g : Graph) (thrRetries : Bool) (n : Node) : Bool :=
  match g.kindOf n with
  | some Kind.FLOW => true
  | some Kind.TASK => true
  | some Kind.RETRY => thrRetries
  | none => false

/-- Modelled from the spec: the level-synchronized core of the breadth-first
walk. Each round emits the current frontier (restricted to fresh nodes) and
builds the next frontier from the adjacents of its expandable members, so
nodes are reached in nondecreasing distance order. -/
def bfsRounds (g : Graph) (es : List (Node × Node)) (thrRetries : Bool)
    (frontier visited : List Node) : List (List Node) :=
  let fr := frontier.filter (fun n => decide (n ∉ visited) && decide (n ∈ edgeNodes es))
  if h : fr = [] then []
  else
    fr :: bfsRounds g es thrRetries
      ((fr.filter (bfsExpandable g thrRetries)).flatMap (adjacents es))
      (visited ++ fr)
termination_by closMeasure es visited
decreasing_by
  rcases List.exists_mem_of_ne_nil fr h with ⟨n, hn⟩
  have hfr := List.mem_filter.mp hn
  have hnv : n ∉ visited := by
    have := hfr.2
    simp only [Bool.and_eq_true, decide_eq_true_iff] at this
    exact this.1
  have hnU : n ∈ edgeNodes es := by
    have := hfr.2
    simp only [Bool.and_eq_true, decide_eq_true_iff] at this
    exact this.2
  apply length_filter_lt_of_strict (edgeNodes es)
    (fun m => !(decide (m ∈ visited))) (fun m => !(decide (m ∈ visited ++ fr)))
    ?imp n hnU ?hp ?hq
  case imp =>
    intro a ha
    simp only [Bool.not_eq_true', decide_eq_false_iff_not, List.mem_append, not_or] at ha ⊢
    exact ha.1
  case hp => simp [hnv]
  case hq => simp [hn]

/-- Modelled from the spec:
`taskflow.engines.action_engine.traversal.breadth_first_iterate` (the
traversal module is not in the sampled source). A breadth-first walk from the
starting node's neighbors in the given direction; flow markers are walked
through but not yielded, and when `thrRetries` is false the walk stops at
retry nodes (they are yielded but not expanded). -/
def breadth_first_iterate (g : Graph) (start : Node) (d : Direction)
    (thrRetries : Bool) : List Node :=
  let es := dirEdges g d
  ((bfsRounds g es thrRetries (adjacents es start) []).flatten).filter
    (fun n => g.isAtomNode n)

/-! ### Browsing frontiers (`Analyzer.browse_atoms_for_*`, `iter_next_atoms`) -/

/-- `Analyzer.browse_atoms_for_execute(atom)`: candidate atoms (whole graph
when unseeded, breadth-first forward from the seed otherwise), filtered to
the ones `_get_maybe_ready_for_execute` reports ready, paired with their
late decider. -/
def browse_atoms_for_execute (env : Env) (atom : Option Node) :
    List (Node × Option Decider) :=
  let atom_it := match atom with
    | none => iterate_nodes env.graph ATOMS
    | some a => breadth_first_iterate env.graph a Direction.FORWARD true
  atom_it.filterMap (fun a =>
    match get_maybe_ready_for_execute env a with
    | (true, d) => some (a, d)
    | (false, _) => none)

/-- `Analyzer.browse_atoms_for_revert(atom)`: candidate atoms (whole graph
when unseeded, breadth-first backward from the seed with
`through_retries=False` otherwise), filtered to the ones
`_get_maybe_ready_for_revert` reports ready. -/
def browse_atoms_for_revert (env : Env) (atom : Option Node) :
    List (Node × Option Decider) :=
  let atom_it := match atom with
    | none => iterate_nodes env.graph ATOMS
    | some a => breadth_first_iterate env.graph a Direction.BACKWARD false
  atom_it.filterMap (fun a =>
    match get_maybe_ready_for_revert env a with
    | (true, d) => some (a, d)
    | (false, _) => none)

/-- Helper of `iter_utils.unique_seen`: keep each pair whose key (first
component) has not been seen before. -/
def uniqueSeenAux (seen : List Node) :
    List (Node × Option Decider) → List (Node × Option Decider)
  | [] => []
  | p :: t => if p.1 ∈ seen then uniqueSeenAux seen t
              else p :: uniqueSeenAux (p.1 :: seen) t

/-- `iter_utils.unique_seen(its, seen_selector=operator.itemgetter(0))`:
deduplicate the pairs by their atom, keeping first occurrences. -/
def unique_seen_fst (l : List (Node × Option Decider)) : List (Node × Option Decider) :=
  uniqueSeenAux [] l

/-- `Analyzer.iter_next_atoms(atom=None)` / `iter_next_atoms(atom)`. -/
def iter_next_atoms (env : Env) (atom : Option Node) : List (Node × Option Decider) :=
  match atom with
  | none =>
      unique_seen_fst (browse_atoms_for_execute env none ++ browse_atoms_for_revert env none)
  | some a =>
      let state := env.storage.get_atom_state a
      let intention := env.storage.get_atom_intention a
      if state = St.SUCCESS then
        if intention = St.REVERT then [(a, some Decider.NoOpDecider)]
        else if intention = St.EXECUTE then browse_atoms_for_execute env (some a)
        else []
      else if state = St.REVERTED then browse_atoms_for_revert env (some a)
      else if state = St.FAILURE then browse_atoms_for_revert env none
      else []

/-! ### Readiness of a single atom (claims C1 and C2) -/

theorem execReadyChecker_spec (env : Env) (l : List Node) :
    execReadyChecker (l.map (fun a =>
      (a, env.storage.state a, env.storage.intention a))) = true ↔
    ∀ b ∈ l, (env.storage.state b = St.SUCCESS ∨ env.storage.state b = St.IGNORE) ∧
      (env.storage.intention b = St.EXECUTE ∨ env.storage.intention b = St.IGNORE) := by
  unfold execReadyChecker
  rw [List.all_eq_true]
  constructor
  · intro h b hb
    have := h _ (List.mem_map.mpr ⟨b, hb, rfl⟩)
    simpa using this
  · intro h p hp
    rcases List.mem_map.mp hp with ⟨b, hb, rfl⟩
    simpa using h b hb

theorem revertReadyChecker_spec (env : Env) (l : List Node) :
    revertReadyChecker (l.map (fun a =>
      (a, env.storage.state a, env.storage.intention a))) = true ↔
    ∀ b ∈ l, env.storage.state b = St.PENDING ∨ env.storage.state b = St.REVERTED ∨
      env.storage.state b = St.IGNORE := by
  unfold revertReadyChecker
  rw [List.all_eq_true]
  constructor
  · intro h b hb
    have := h _ (List.mem_map.mpr ⟨b, hb, rfl⟩)
    simpa [or_assoc] using this
  · intro h p hp
    rcases List.mem_map.mp hp with ⟨b, hb, rfl⟩
    simpa [or_assoc] using h b hb

/-- **C1.** `Analyzer._get_maybe_ready_for_execute` returns `ready = true`
iff the transition from the atom's stored state to `RUNNING` is legal, the
stored intention is `EXECUTE`, and every atom reachable backward from it in
the execution graph has state `SUCCESS`/`IGNORE` and intention
`EXECUTE`/`IGNORE`; when ready the late decider is the `IgnoreDecider` built
from the atom's edge deciders, otherwise the decider is `none`. -/
theorem maybe_ready_execute_spec (env : Env) (atom : Node) :
    ((get_maybe_ready_for_execute env atom).1 = true ↔
      (env.check_transition atom (env.storage.state atom) St.RUNNING = true ∧
       env.storage.intention atom = St.EXECUTE ∧
       ∀ b, ReachableBack env.graph atom b → env.graph.isAtomNode b = true →
         (env.storage.state b = St.SUCCESS ∨ env.storage.state b = St.IGNORE) ∧
         (env.storage.intention b = St.EXECUTE ∨ env.storage.intention b = St.IGNORE))) ∧
    ((get_maybe_ready_for_execute env atom).1 = true →
      (get_maybe_ready_for_execute env atom).2 =
        some (Decider.IgnoreDecider atom (fetch_edge_deciders env atom))) ∧
    ((get_maybe_ready_for_execute env atom).1 = false →
      (get_maybe_ready_for_execute env atom).2 = none) := by
  have hconn : (execReadyChecker
      ((depth_first_iterate env.graph atom Direction.BACKWARD).map (fun a =>
        (a, env.storage.state a, env.storage.intention a))) = true) ↔
      (∀ b, ReachableBack env.graph atom b → env.graph.isAtomNode b = true →
        (env.storage.state b = St.SUCCESS ∨ env.storage.state b = St.IGNORE) ∧
        (env.storage.intention b = St.EXECUTE ∨ env.storage.intention b = St.IGNORE)) := by
    rw [execReadyChecker_spec]
    constructor
    · intro h b hr ha
      exact h b (mem_depth_first_iterate.mpr ⟨hr, ha⟩)
    · intro h b hb
      rcases mem_depth_first_iterate.mp hb with ⟨hr, ha⟩
      exact h b hr ha
  unfold get_maybe_ready_for_execute get_maybe_ready
  simp only [Env.check_atom_transition, Storage.get_atom_state, Storage.get_atom_intention]
  by_cases h1 : env.check_transition atom (env.storage.state atom) St.RUNNING = true
  · by_cases h2 : env.storage.intention atom = St.EXECUTE
    · by_cases h3 : execReadyChecker
        ((depth_first_iterate env.graph atom Direction.BACKWARD).map (fun a =>
          (a, env.storage.state a, env.storage.intention a))) = true
      · simp only [h1, h2, h3]
        simp
        exact hconn.mp h3
      · simp [h1, h2, h3, ← hconn]
    · simp [h1, h2]
  · simp [h1]

/-- **C2.** `Analyzer._get_maybe_ready_for_revert` returns `ready = true`
iff the transition from the atom's stored state to `REVERTING` is legal, the
stored intention is `REVERT` or `RETRY`, and every atom reachable forward
from it has state `PENDING`/`REVERTED`/`IGNORE`; when ready the late decider
is a `NoOpDecider`. -/
theorem maybe_ready_revert_spec (env : Env) (atom : Node) :
    ((get_maybe_ready_for_revert env atom).1 = true ↔
      (env.check_transition atom (env.storage.state atom) St.REVERTING = true ∧
       (env.storage.intention atom = St.REVERT ∨ env.storage.intention atom = St.RETRY) ∧
       ∀ b, ReachableFwd env.graph atom b → env.graph.isAtomNode b = true →
         (env.storage.state b = St.PENDING ∨ env.storage.state b = St.REVERTED ∨
          env.storage.state b = St.IGNORE))) ∧
    ((get_maybe_ready_for_revert env atom).1 = true →
      (get_maybe_ready_for_revert env atom).2 = some Decider.NoOpDecider) ∧
    ((get_maybe_ready_for_revert env atom).1 = false →
      (get_maybe_ready_for_revert env atom).2 = none) := by
  have hconn : (revertReadyChecker
      ((depth_first_iterate env.graph atom Direction.FORWARD).map (fun a =>
        (a, env.storage.state a, env.storage.intention a))) = true) ↔
      (∀ b, ReachableFwd env.graph atom b → env.graph.isAtomNode b = true →
        (env.storage.state b = St.PENDING ∨ env.storage.state b = St.REVERTED ∨
         env.storage.state b = St.IGNORE)) := by
    rw [revertReadyChecker_spec]
    constructor
    · intro h b hr ha
      exact h b (mem_depth_first_iterate.mpr ⟨hr, ha⟩)
    · intro h b hb
      rcases mem_depth_first_iterate.mp hb with ⟨hr, ha⟩
      exact h b hr ha
  unfold get_maybe_ready_for_revert get_maybe_ready
  simp only [Env.check_atom_transition, Storage.get_atom_state, Storage.get_atom_intention]
  by_cases h1 : env.check_transition atom (env.storage.state atom) St.REVERTING = true
  · by_cases h2 : env.storage.intention atom ∈ [St.REVERT, St.RETRY]
    · have h2' : env.storage.intention atom = St.REVERT ∨
          env.storage.intention atom = St.RETRY := by simpa using h2
      by_cases h3 : revertReadyChecker
        ((depth_first_iterate env.graph atom Direction.FORWARD).map (fun a =>
          (a, env.storage.state a, env.storage.intention a))) = true
      · simp only [h1, h2, h2', h3]
        simp
        exact hconn.mp h3
      · simp [h1, h2, h2', h3, ← hconn]
    · have h2' : ¬(env.storage.intention atom = St.REVERT ∨
          env.storage.intention atom = St.RETRY) := by simpa using h2
      simp [h1, h2, h2']
  · simp [h1]

theorem uniqueSeenAux_subset (l : List (Node × Option Decider)) :
    ∀ seen, ∀ p ∈ uniqueSeenAux seen l, p ∈ l := by
  induction l with
  | nil =>
    intro seen p hp
    cases hp
  | cons q t ih =>
    intro seen p hp
    rw [uniqueSeenAux] at hp
    by_cases hq : q.1 ∈ seen
    · rw [if_pos hq] at hp
      exact List.mem_cons_of_mem q (ih seen p hp)
    · rw [if_neg hq] at hp
      rcases List.mem_cons.mp hp with h | h
      · exact h ▸ List.mem_cons_self q t
      · exact List.mem_cons_of_mem q (ih _ p h)

theorem uniqueSeenAux_keys_nodup (l : List (Node × Option Decider)) :
    ∀ seen, ((uniqueSeenAux seen l).map (·.1)).Nodup ∧
      ∀ p ∈ uniqueSeenAux seen l, p.1 ∉ seen := by
  induction l with
  | nil =>
    intro seen
    exact ⟨List.nodup_nil, by intro p hp; cases hp⟩
  | cons q t ih =>
    intro seen
    rw [uniqueSeenAux]
    by_cases hq : q.1 ∈ seen
    · rw [if_pos hq]
      exact ih seen
    · rw [if_neg hq]
      obtain ⟨hnodup, hseen⟩ := ih (q.1 :: seen)
      refine ⟨?_, ?_⟩
      · rw [List.map_cons, List.nodup_cons]
        refine ⟨?_, hnodup⟩
        intro hmem
        rcases List.mem_map.mp hmem with ⟨p, hp, hpk⟩
        exact hseen p hp (hpk ▸ List.mem_cons_self q.1 seen)
      · intro p hp
        rcases List.mem_cons.mp hp with h | h
        · exact h ▸ hq
        · intro hpseen
          exact hseen p h (List.mem_cons_of_mem q.1 hpseen)

theorem uniqueSeenAux_find? (l : List (Node × Option Decider)) :
    ∀ seen, ∀ k ∉ seen,
      (uniqueSeenAux seen l).find? (fun p => p.1 == k) =
        l.find? (fun p => p.1 == k) := by
  induction l with
  | nil =>
    intro seen k _
    rfl
  | cons q t ih =>
    intro seen k hk
    rw [uniqueSeenAux]
    by_cases hq : q.1 ∈ seen
    · rw [if_pos hq]
      have hne : (q.1 == k) = false := by
        simp only [beq_eq_false_iff_ne, ne_eq]
        intro h
        exact hk (h ▸ hq)
      have hstep : List.find? (fun p : Node × Option Decider => p.1 == k) (q :: t) =
          List.find? (fun p : Node × Option Decider => p.1 == k) t := by
        simp [List.find?, hne]
      rw [hstep]
      exact ih seen k hk
    · rw [if_neg hq]
      by_cases hqk : q.1 = k
      · have hpos : (q.1 == k) = true := by simp [hqk]
        simp [List.find?, hpos]
      · have hne : (q.1 == k) = false := by simp [hqk]
        have hstep1 : List.find? (fun p : Node × Option Decider => p.1 == k)
            (q :: uniqueSeenAux (q.1 :: seen) t) =
            List.find? (fun p : Node × Option Decider => p.1 == k)
              (uniqueSeenAux (q.1 :: seen) t) := by
          simp [List.find?, hne]
        have hstep2 : List.find? (fun p : Node × Option Decider => p.1 == k) (q :: t) =
            List.find? (fun p : Node × Option Decider => p.1 == k) t := by
          simp [List.find?, hne]
        rw [hstep1, hstep2]
        refine ih (q.1 :: seen) k ?_
        intro hmem
        rcases List.mem_cons.mp hmem with h | h
        · exact hqk h.symm
        · exact hk h

/-- **C3.** `Analyzer.iter_next_atoms`: with no seed it merges the execute
and revert frontiers with duplicates removed by atom (first occurrence
kept); with a seed it branches on the seed's stored state and intention as
the five listed cases, and yields nothing in any other combination. -/
theorem iter_next_atoms_spec (env : Env) (a : Node) :
    (iter_next_atoms env none =
        unique_seen_fst (browse_atoms_for_execute env none ++
          browse_atoms_for_revert env none) ∧
      ((iter_next_atoms env none).map (·.1)).Nodup ∧
      (∀ p ∈ iter_next_atoms env none,
        p ∈ browse_atoms_for_execute env none ++ browse_atoms_for_revert env none) ∧
      (∀ k, (iter_next_atoms env none).find? (fun p => p.1 == k) =
        (browse_atoms_for_execute env none ++ browse_atoms_for_revert env none).find?
          (fun p => p.1 == k))) ∧
    (env.storage.state a = St.SUCCESS → env.storage.intention a = St.REVERT →
      iter_next_atoms env (some a) = [(a, some Decider.NoOpDecider)]) ∧
    (env.storage.state a = St.SUCCESS → env.storage.intention a = St.EXECUTE →
      iter_next_atoms env (some a) = browse_atoms_for_execute env (some a)) ∧
    (env.storage.state a = St.SUCCESS → env.storage.intention a ≠ St.REVERT →
      env.storage.intention a ≠ St.EXECUTE → iter_next_atoms env (some a) = []) ∧
    (env.storage.state a = St.REVERTED →
      iter_next_atoms env (some a) = browse_atoms_for_revert env (some a)) ∧
    (env.storage.state a = St.FAILURE →
      iter_next_atoms env (some a) = browse_atoms_for_revert env none) ∧
    (env.storage.state a ≠ St.SUCCESS → env.storage.state a ≠ St.REVERTED →
      env.storage.state a ≠ St.FAILURE → iter_next_atoms env (some a) = []) := by
  refine ⟨⟨rfl, ?_, ?_, ?_⟩, ?_, ?_, ?_, ?_, ?_, ?_⟩
  · exact (uniqueSeenAux_keys_nodup _ []).1
  · exact fun p hp => uniqueSeenAux_subset _ [] p hp
  · intro k
    exact uniqueSeenAux_find? _ [] k (List.not_mem_nil k)
  · intro h1 h2
    simp [iter_next_atoms, Storage.get_atom_state, Storage.get_atom_intention, h1, h2]
  · intro h1 h2
    simp [iter_next_atoms, Storage.get_atom_state, Storage.get_atom_intention, h1, h2]
  · intro h1 h2 h3
    simp [iter_next_atoms, Storage.get_atom_state, Storage.get_atom_intention, h1, h2, h3]
  · intro h1
    have h2 : env.storage.state a ≠ St.SUCCESS := by
      rw [h1]; intro h; cases h
    simp [iter_next_atoms, Storage.get_atom_state, Storage.get_atom_intention, h1, h2]
  · intro h1
    have h2 : env.storage.state a ≠ St.SUCCESS := by
      rw [h1]; intro h; cases h
    have h3 : env.storage.state a ≠ St.REVERTED := by
      rw [h1]; intro h; cases h
    simp [iter_next_atoms, Storage.get_atom_state, Storage.get_atom_intention, h1, h2, h3]
  · intro h1 h2 h3
    simp [iter_next_atoms, Storage.get_atom_state, Storage.get_atom_intention, h1, h2, h3]

/-! ### Breadth-first order and retry boundaries (claim C4) -/

theorem bfsRounds_sound (g : Graph) (es : List (Node × Node)) (thr : Bool)
    (R : Node → Prop)
    (hstep : ∀ u v, R u → bfsExpandable g thr u = true → AdjRel es u v → R v) :
    ∀ frontier visited, (∀ f ∈ frontier, R f) →
      ∀ v, v ∈ (bfsRounds g es thr frontier visited).flatten → R v := by
  intro frontier visited
  induction frontier, visited using bfsRounds.induct g es thr with
  | case1 frontier visited fr hfr =>
    intro _ v hv
    rw [bfsRounds] at hv
    simp only [dif_pos hfr] at hv
    cases hv
  | case2 frontier visited fr hfr ih =>
    intro hR v hv
    rw [bfsRounds] at hv
    simp only [dif_neg hfr] at hv
    rw [List.flatten_cons] at hv
    have hfrR : ∀ f ∈ fr, R f := by
      intro f hf
      exact hR f (List.mem_filter.mp hf).1
    rcases List.mem_append.mp hv with h | h
    · exact hfrR v h
    · refine ih ?_ v h
      intro f hf
      rcases List.mem_flatMap.mp hf with ⟨u, hu, hadj⟩
      have hu' := List.mem_filter.mp hu
      exact hstep u f (hfrR u hu'.1) hu'.2 (mem_adjacents.mp hadj)

/-- Paths of a fixed number of edges along an edge list. -/
inductive PathN (es : List (Node × Node)) : Node → Node → Nat → Prop where
  | refl (a : Node) : PathN es a a 0
  | tail {a b c : Node} {n : Nat} : PathN es a b n → AdjRel es b c → PathN es a c (n + 1)

/-- `v` is reachable from some frontier node in exactly `k` steps. -/
def ReachIn (es : List (Node × Node)) (F : List Node) (k : Nat) (v : Node) : Prop :=
  ∃ f ∈ F, PathN es f v k

/-- `v` first becomes reachable from the frontier at distance exactly `k`. -/
def AtLayer (es : List (Node × Node)) (F : List Node) (k : Nat) (v : Node) : Prop :=
  ReachIn es F k v ∧ ∀ j < k, ¬ ReachIn es F j v

theorem pathN_zero {es : List (Node × Node)} {a b : Node} :
    PathN es a b 0 ↔ a = b := by
  constructor
  · intro h
    cases h
    rfl
  · intro h
    exact h ▸ PathN.refl a

theorem pathN_succ {es : List (Node × Node)} {a c : Node} {n : Nat} :
    PathN es a c (n + 1) ↔ ∃ b, PathN es a b n ∧ AdjRel es b c := by
  constructor
  · intro h
    cases h with
    | tail hp hadj => exact ⟨_, hp, hadj⟩
  · rintro ⟨b, hp, hadj⟩
    exact PathN.tail hp hadj

theorem pathN_head {es : List (Node × Node)} {a c : Node} :
    ∀ {n : Nat}, PathN es a c (n + 1) ↔ ∃ b, AdjRel es a b ∧ PathN es b c n := by
  intro n
  induction n generalizing c with
  | zero =>
    constructor
    · intro h
      rcases pathN_succ.mp h with ⟨b, hp, hadj⟩
      rw [pathN_zero] at hp
      exact ⟨c, hp ▸ hadj, PathN.refl c⟩
    · rintro ⟨b, hadj, hp⟩
      rw [pathN_zero] at hp
      exact PathN.tail (PathN.refl a) (hp ▸ hadj)
  | succ n ih =>
    constructor
    · intro h
      rcases pathN_succ.mp h with ⟨b, hp, hadj⟩
      rcases ih.mp hp with ⟨x, hax, hxb⟩
      exact ⟨x, hax, PathN.tail hxb hadj⟩
    · rintro ⟨b, hadj, hp⟩
      rcases pathN_succ.mp hp with ⟨x, hbx, hxc⟩
      exact pathN_succ.mpr ⟨x, ih.mpr ⟨b, hadj, hbx⟩, hxc⟩

theorem reachIn_succ {es : List (Node × Node)} {F : List Node} {k : Nat} {v : Node} :
    ReachIn es F (k + 1) v ↔ ∃ u, ReachIn es F k u ∧ AdjRel es u v := by
  unfold ReachIn
  constructor
  · rintro ⟨f, hf, hp⟩
    rcases pathN_succ.mp hp with ⟨b, hp', hadj⟩
    exact ⟨b, ⟨f, hf, hp'⟩, hadj⟩
  · rintro ⟨u, ⟨f, hf, hp⟩, hadj⟩
    exact ⟨f, hf, PathN.tail hp hadj⟩

theorem exists_min_layer {es : List (Node × Node)} {F : List Node} :
    ∀ {j : Nat} {v : Node}, ReachIn es F j v → ∃ k ≤ j, AtLayer es F k v := by
  intro j
  induction j using Nat.strong_induction_on with
  | _ j ih =>
    intro v hv
    by_cases hmin : ∀ i < j, ¬ ReachIn es F i v
    · exact ⟨j, Nat.le_refl j, hv, hmin⟩
    · push_neg at hmin
      rcases hmin with ⟨i, hij, hi⟩
      rcases ih i hij hi with ⟨k, hk, hl⟩
      exact ⟨k, Nat.le_trans hk (Nat.le_of_lt hij), hl⟩

theorem atLayer_succ {es : List (Node × Node)} {F : List Node} {k : Nat} {v : Node}
    (h : AtLayer es F (k + 1) v) :
    ∃ u, AtLayer es F k u ∧ AdjRel es u v := by
  obtain ⟨hr, hmin⟩ := h
  rcases reachIn_succ.mp hr with ⟨u, hu, hadj⟩
  refine ⟨u, ⟨hu, ?_⟩, hadj⟩
  intro i hik hi
  exact hmin (i + 1) (Nat.succ_lt_succ hik) (reachIn_succ.mpr ⟨u, hi, hadj⟩)
  -- the witness along the shorter path through u
  -- (u itself is reached in i steps, so v is reached in i+1 < k+1 steps)

theorem empty_layer_chain {es : List (Node × Node)} {F : List Node} {r : Nat}
    (h : ∀ v, ¬ AtLayer es F r v) : ∀ k v, ¬ AtLayer es F (r + k) v := by
  intro k
  induction k with
  | zero => exact h
  | succ k ih =>
    intro v hv
    have : r + (k + 1) = (r + k) + 1 := rfl
    rw [this] at hv
    rcases atLayer_succ hv with ⟨u, hu, _⟩
    exact ih u hu

theorem mem_fr_iff {es : List (Node × Node)} (frontier visited : List Node) (v : Node) :
    v ∈ frontier.filter (fun n => decide (n ∉ visited) && decide (n ∈ edgeNodes es)) ↔
      (v ∈ frontier ∧ v ∉ visited ∧ v ∈ edgeNodes es) := by
  simp [List.mem_filter]

/-- BFS level correctness: when every edge endpoint is expandable, round `k`
of the walk holds exactly the nodes whose minimal distance from the initial
frontier is `k`. -/
theorem bfsRounds_layers (g : Graph) (es : List (Node × Node)) (F0 : List Node)
    (hexp : ∀ n ∈ edgeNodes es, bfsExpandable g true n = true) :
    ∀ frontier visited,
      ∀ r : Nat,
      (∀ v, v ∈ visited ↔ ∃ j < r, AtLayer es F0 j v) →
      (∀ v, (v ∈ frontier ∧ v ∉ visited ∧ v ∈ edgeNodes es) ↔ AtLayer es F0 r v) →
      ∀ k v, v ∈ ((bfsRounds g es true frontier visited).getD k []) ↔
        AtLayer es F0 (r + k) v := by
  intro frontier visited
  induction frontier, visited using bfsRounds.induct g es true with
  | case1 frontier visited fr hfr =>
    intro r hIV hIF k v
    rw [bfsRounds]
    simp only [dif_pos hfr]
    have hempty : ∀ w, ¬ AtLayer es F0 r w := by
      intro w hw
      have hmem : w ∈ frontier.filter
          (fun n => decide (n ∉ visited) && decide (n ∈ edgeNodes es)) :=
        (mem_fr_iff frontier visited w).mpr ((hIF w).mpr hw)
      have hfr' : frontier.filter
          (fun n => decide (n ∉ visited) && decide (n ∈ edgeNodes es)) = [] := hfr
      rw [hfr'] at hmem
      cases hmem
    constructor
    · intro hv
      simp only [List.getD, List.get?] at hv
      cases k <;> simp at hv
    · intro hv
      exact absurd hv (empty_layer_chain hempty k v)
  | case2 frontier visited fr hfr ih =>
    intro r hIV hIF k v
    rw [bfsRounds]
    simp only [dif_neg hfr]
    have hfrmem : ∀ w, w ∈ fr ↔ AtLayer es F0 r w := by
      intro w
      have h1 : (w ∈ fr) ↔ (w ∈ frontier ∧ w ∉ visited ∧ w ∈ edgeNodes es) :=
        mem_fr_iff frontier visited w
      rw [h1, hIF w]
    cases k with
    | zero =>
      have hgd : ∀ (rest : List (List Node)),
          ((fr :: rest).getD 0 []) = fr := fun _ => rfl
      rw [hgd, Nat.add_zero]
      exact hfrmem v
    | succ k =>
      have harith : r + (k + 1) = (r + 1) + k := by omega
      rw [harith]
      have hIV' : ∀ w, w ∈ visited ++ fr ↔ ∃ j < r + 1, AtLayer es F0 j w := by
        intro w
        rw [List.mem_append, hIV w]
        constructor
        · rintro (⟨j, hj, hl⟩ | hw)
          · exact ⟨j, Nat.lt_succ_of_lt hj, hl⟩
          · exact ⟨r, Nat.lt_succ_self r, (hfrmem w).mp hw⟩
        · rintro ⟨j, hj, hl⟩
          rcases Nat.lt_succ_iff_lt_or_eq.mp hj with h | h
          · exact Or.inl ⟨j, h, hl⟩
          · exact Or.inr ((hfrmem w).mpr (h ▸ hl))
      have hIF' : ∀ w, (w ∈ (fr.filter (bfsExpandable g true)).flatMap (adjacents es) ∧
          w ∉ visited ++ fr ∧ w ∈ edgeNodes es) ↔ AtLayer es F0 (r + 1) w := by
        intro w
        constructor
        · rintro ⟨hwf, hwnv, hwU⟩
          rcases List.mem_flatMap.mp hwf with ⟨u, hu, hadj⟩
          have hu' := List.mem_filter.mp hu
          have hul : AtLayer es F0 r u := (hfrmem u).mp hu'.1
          have hadj' : AdjRel es u w := mem_adjacents.mp hadj
          refine ⟨reachIn_succ.mpr ⟨u, hul.1, hadj'⟩, ?_⟩
          intro j hj hrj
          rcases exists_min_layer hrj with ⟨j', hj', hl'⟩
          have hj'' : j' < r + 1 := Nat.lt_of_le_of_lt hj' hj
          apply hwnv
          rw [List.mem_append]
          rcases Nat.lt_succ_iff_lt_or_eq.mp hj'' with h | h
          · exact Or.inl ((hIV w).mpr ⟨j', h, hl'⟩)
          · exact Or.inr ((hfrmem w).mpr (h ▸ hl'))
        · intro hw
          rcases atLayer_succ hw with ⟨u, hul, hadj⟩
          have huf : u ∈ fr := (hfrmem u).mpr hul
          have huf' : u ∈ frontier.filter
              (fun n => decide (n ∉ visited) && decide (n ∈ edgeNodes es)) := huf
          have huU : u ∈ edgeNodes es := ((mem_fr_iff frontier visited u).mp huf').2.2
          refine ⟨?_, ?_, mem_edgeNodes_of_adj (mem_adjacents.mpr hadj)⟩
          · exact List.mem_flatMap.mpr ⟨u,
              List.mem_filter.mpr ⟨huf, hexp u huU⟩, mem_adjacents.mpr hadj⟩
          · intro hmem
            rw [List.mem_append] at hmem
            rcases hmem with h | h
            · rcases (hIV w).mp h with ⟨j, hj, hl⟩
              exact hw.2 j (Nat.lt_succ_of_lt hj) hl.1
            · exact hw.2 r (Nat.lt_succ_self r) ((hfrmem w).mp h).1
      have hgd : ∀ (rest : List (List Node)),
          ((fr :: rest).getD (k + 1) []) = rest.getD k [] := fun _ => rfl
      rw [hgd]
      exact ih (r + 1) hIV' hIF' k v

/-- The region the seeded revert browse may visit: nodes backward-reachable
from the seed along predecessor edges whose every intermediate hop leaves a
flow or task node — never a retry controller. -/
inductive BackAvoidingRetries (g : Graph) (seed : Node) : Node → Prop where
  | base {v : Node} : (v, seed) ∈ g.edges → BackAvoidingRetries g seed v
  | step {u v : Node} : BackAvoidingRetries g seed u →
      (g.kindOf u = some Kind.FLOW ∨ g.kindOf u = some Kind.TASK) →
      (v, u) ∈ g.edges → BackAvoidingRetries g seed v

theorem bfsExpandable_false_iff (g : Graph) (u : Node) :
    bfsExpandable g false u = true ↔
      (g.kindOf u = some Kind.FLOW ∨ g.kindOf u = some Kind.TASK) := by
  unfold bfsExpandable
  cases h : g.kindOf u with
  | none => simp [h]
  | some k => cases k <;> simp [h]

/-- Helper: every node visited by the seeded backward walk with
`through_retries=False` lies inside the retry-free backward region. -/
theorem backward_walk_in_noRetry_region (env : Env) (seed : Node) :
    ∀ v ∈ breadth_first_iterate env.graph seed Direction.BACKWARD false,
      BackAvoidingRetries env.graph seed v := by
  intro v hv
  unfold breadth_first_iterate at hv
  have hv' := (List.mem_filter.mp hv).1
  refine bfsRounds_sound env.graph (dirEdges env.graph Direction.BACKWARD) false
    (BackAvoidingRetries env.graph seed) ?_ _ _ ?_ v hv'
  · intro u w hu hexp hadj
    have hedge : (w, u) ∈ env.graph.edges := by
      have := (adjRel_dirEdges env.graph Direction.BACKWARD u w).mp hadj
      exact this
    exact BackAvoidingRetries.step hu ((bfsExpandable_false_iff env.graph u).mp hexp) hedge
  · intro f hf
    have : AdjRel (dirEdges env.graph Direction.BACKWARD) seed f := mem_adjacents.mp hf
    have hedge : (f, seed) ∈ env.graph.edges :=
      (adjRel_dirEdges env.graph Direction.BACKWARD seed f).mp this
    exact BackAvoidingRetries.base hedge

theorem bfs_start_layers (g : Graph) (es : List (Node × Node)) (start : Node)
    (hexp : ∀ n ∈ edgeNodes es, bfsExpandable g true n = true) :
    ∀ k v, v ∈ ((bfsRounds g es true (adjacents es start) []).getD k []) ↔
      AtLayer es (adjacents es start) k v := by
  intro k v
  have h := bfsRounds_layers g es (adjacents es start) hexp (adjacents es start) [] 0
    ?_ ?_ k v
  · simpa using h
  · intro w
    simp
  · intro w
    constructor
    · rintro ⟨hw, _, _⟩
      refine ⟨⟨w, hw, PathN.refl w⟩, ?_⟩
      intro j hj
      omega
    · rintro ⟨⟨f, hf, hp⟩, _⟩
      rw [pathN_zero] at hp
      subst hp
      exact ⟨hf, List.not_mem_nil f, mem_edgeNodes_of_adj hf⟩

theorem mem_flatten_idx {L : List (List Node)} {v : Node} (h : v ∈ L.flatten) :
    ∃ i, v ∈ L.getD i [] := by
  induction L with
  | nil => cases h
  | cons l t ih =>
    rw [List.flatten_cons] at h
    rcases List.mem_append.mp h with h | h
    · exact ⟨0, h⟩
    · rcases ih h with ⟨i, hi⟩
      exact ⟨i + 1, hi⟩

theorem pairwise_of_forall_mem {R : Node → Node → Prop} :
    ∀ (l : List Node), (∀ a ∈ l, ∀ b ∈ l, R a b) → l.Pairwise R := by
  intro l
  induction l with
  | nil =>
    intro _
    exact List.Pairwise.nil
  | cons a t ih =>
    intro h
    refine List.Pairwise.cons ?_ (ih ?_)
    · intro b hb
      exact h a (List.mem_cons_self a t) b (List.mem_cons_of_mem a hb)
    · intro x hx y hy
      exact h x (List.mem_cons_of_mem a hx) y (List.mem_cons_of_mem a hy)

theorem pairwise_flatten_of_layers {R : Node → Node → Prop} :
    ∀ (L : List (List Node)) (P : Nat → Node → Prop),
      (∀ i j a b, i ≤ j → P i a → P j b → R a b) →
      (∀ i v, v ∈ L.getD i [] → P i v) → L.flatten.Pairwise R := by
  intro L
  induction L with
  | nil =>
    intro P _ _
    exact List.Pairwise.nil
  | cons l t ih =>
    intro P hrel hP
    rw [List.flatten_cons, List.pairwise_append]
    refine ⟨?_, ?_, ?_⟩
    · apply pairwise_of_forall_mem
      intro a ha b hb
      exact hrel 0 0 a b (Nat.le_refl 0) (hP 0 a ha) (hP 0 b hb)
    · refine ih (fun i => P (i + 1)) ?_ ?_
      · intro i j a b hij ha hb
        exact hrel (i + 1) (j + 1) a b (Nat.succ_le_succ hij) ha hb
      · intro i v hv
        exact hP (i + 1) v hv
    · intro a ha b hb
      rcases mem_flatten_idx hb with ⟨i, hi⟩
      exact hrel 0 (i + 1) a b (Nat.zero_le _) (hP 0 a ha) (hP (i + 1) b hi)

/-- `a` is no deeper than `b`, seen from `seed`: any nonempty path from
`seed` to `b` admits a path from `seed` to `a` that is at most as long.
This is the "nearer atoms are checked first" ordering. -/
def NoDeeper (es : List (Node × Node)) (seed : Node) (a b : Node) : Prop :=
  ∀ k, 1 ≤ k → PathN es seed b k → ∃ j, 1 ≤ j ∧ j ≤ k ∧ PathN es seed a j

theorem pathN_seed_succ {es : List (Node × Node)} {seed v : Node} {k : Nat} :
    PathN es seed v (k + 1) ↔ ReachIn es (adjacents es seed) k v := by
  rw [pathN_head]
  unfold ReachIn
  constructor
  · rintro ⟨b, hadj, hp⟩
    exact ⟨b, mem_adjacents.mpr hadj, hp⟩
  · rintro ⟨f, hf, hp⟩
    exact ⟨f, mem_adjacents.mp hf, hp⟩

theorem atLayer_noDeeper {es : List (Node × Node)} {seed : Node} {i j : Nat}
    {a b : Node} (hij : i ≤ j) (ha : AtLayer es (adjacents es seed) i a)
    (hb : AtLayer es (adjacents es seed) j b) : NoDeeper es seed a b := by
  intro k hk hp
  obtain ⟨k', rfl⟩ : ∃ k', k = k' + 1 := ⟨k - 1, by omega⟩
  have hrb : ReachIn es (adjacents es seed) k' b := pathN_seed_succ.mp hp
  have hjk : j ≤ k' := by
    by_contra hlt
    push_neg at hlt
    exact hb.2 k' hlt hrb
  exact ⟨i + 1, by omega, by omega, pathN_seed_succ.mpr ha.1⟩

/-- Helper: the seeded forward walk emits nodes in nondecreasing distance
from the seed. -/
theorem breadth_first_forward_pairwise (g : Graph) (seed : Node)
    (hexp : ∀ n ∈ edgeNodes g.edges, bfsExpandable g true n = true) :
    (breadth_first_iterate g seed Direction.FORWARD true).Pairwise
      (NoDeeper g.edges seed) := by
  unfold breadth_first_iterate
  apply List.Pairwise.sublist (List.filter_sublist _)
  apply pairwise_flatten_of_layers _
    (fun i v => AtLayer g.edges (adjacents g.edges seed) i v)
  · intro i j a b hij ha hb
    exact atLayer_noDeeper hij ha hb
  · intro i v hv
    exact (bfs_start_layers g g.edges seed hexp i v).mp hv

/-- **C4.** Seeded browsing: `browse_atoms_for_execute` enumerates its
candidates by the breadth-first forward walk from the seed, whose output is
ordered by nondecreasing distance (nearer atoms are checked before deeper
ones); `browse_atoms_for_revert` enumerates its candidates by the
breadth-first backward walk with `through_retries=False`, and every node
that walk visits is backward-reachable from the seed through flow/task hops
only — a retry controller is never crossed, so no atom on the far side of a
retry is visited. -/
theorem browse_seeded_traversal_spec (env : Env) (seed : Node)
    (hexp : ∀ n ∈ edgeNodes env.graph.edges, bfsExpandable env.graph true n = true) :
    (browse_atoms_for_execute env (some seed) =
      (breadth_first_iterate env.graph seed Direction.FORWARD true).filterMap
        (fun a => match get_maybe_ready_for_execute env a with
          | (true, d) => some (a, d)
          | (false, _) => none)) ∧
    (breadth_first_iterate env.graph seed Direction.FORWARD true).Pairwise
      (NoDeeper env.graph.edges seed) ∧
    (browse_atoms_for_revert env (some seed) =
      (breadth_first_iterate env.graph seed Direction.BACKWARD false).filterMap
        (fun a => match get_maybe_ready_for_revert env a with
          | (true, d) => some (a, d)
          | (false, _) => none)) ∧
    (∀ v ∈ breadth_first_iterate env.graph seed Direction.BACKWARD false,
      BackAvoidingRetries env.graph seed v) := by
  exact ⟨rfl, breadth_first_forward_pairwise env.graph seed hexp, rfl,
    backward_walk_in_noRetry_region env seed⟩

/-! ### Characterizing the decider walk (claim C5) -/

/-- The flow marker nodes reached from `atom` by transitively following
predecessor edges through flow nodes only. -/
inductive FlowChain (g : Graph) (atom : Node) : Node → Prop where
  | base {f : Node} : f ∈ g.preds atom → g.kindOf f = some Kind.FLOW →
      FlowChain g atom f
  | step {f f' : Node} : FlowChain g atom f' → f ∈ g.preds f' →
      g.kindOf f = some Kind.FLOW → FlowChain g atom f

/-- Pairs the decider walk processes, as a closure of the starting queue
under first-visit expansion of flow nodes. -/
inductive PairClosure (g : Graph) (Q : List (Node × Node)) (V : List Node) :
    Node × Node → Prop where
  | base {p : Node × Node} : p ∈ Q → PairClosure g Q V p
  | step {u v w : Node} : PairClosure g Q V (u, v) →
      g.kindOf u = some Kind.FLOW → u ∉ V → w ∈ g.preds u →
      PairClosure g Q V (w, u)

theorem pairClosure_nil (g : Graph) (V : List Node) (p : Node × Node) :
    ¬ PairClosure g [] V p := by
  intro h
  induction h with
  | base hp => cases hp
  | step _ _ _ _ ih => exact ih

theorem pairClosure_mono (g : Graph) {Q Q' : List (Node × Node)} {V : List Node}
    (hsub : ∀ p ∈ Q, p ∈ Q') :
    ∀ p, PairClosure g Q V p → PairClosure g Q' V p := by
  intro p h
  induction h with
  | base hp => exact PairClosure.base (hsub _ hp)
  | step _ hk hv hw ih => exact PairClosure.step ih hk hv hw

theorem pairClosure_expand (g : Graph) (u v : Node) (rest : List (Node × Node))
    (V : List Node) (hk : g.kindOf u = some Kind.FLOW) (hv : u ∉ V) :
    ∀ p, PairClosure g ((u, v) :: rest) V p ↔
      p = (u, v) ∨
      PairClosure g (rest ++ (g.preds u).map (fun w => (w, u))) (u :: V) p := by
  intro p
  constructor
  · intro h
    induction h with
    | base hp =>
      rcases List.mem_cons.mp hp with h | h
      · exact Or.inl h
      · exact Or.inr (PairClosure.base (List.mem_append_left _ h))
    | step hcl hk' hv' hw ih =>
      rcases ih with h | h
      · have hu : _ = u := congrArg Prod.fst h
        simp only at hu
        subst hu
        exact Or.inr (PairClosure.base
          (List.mem_append_right _ (List.mem_map.mpr ⟨_, hw, rfl⟩)))
      · rename_i x y w
        by_cases hxu : x = u
        · subst hxu
          exact Or.inr (PairClosure.base
            (List.mem_append_right _ (List.mem_map.mpr ⟨_, hw, rfl⟩)))
        · refine Or.inr (PairClosure.step h hk' ?_ hw)
          intro hmem
          rcases List.mem_cons.mp hmem with h' | h'
          · exact hxu h'
          · exact hv' h'
  · intro h
    rcases h with h | h
    · exact PairClosure.base (h ▸ List.mem_cons_self _ _)
    · induction h with
      | base hp =>
        rcases List.mem_append.mp hp with h' | h'
        · exact PairClosure.base (List.mem_cons_of_mem _ h')
        · rcases List.mem_map.mp h' with ⟨w, hw, heq⟩
          have hbase : PairClosure g ((u, v) :: rest) V (u, v) :=
            PairClosure.base (List.mem_cons_self _ _)
          exact heq ▸ PairClosure.step hbase hk hv hw
      | step hcl hk' hv' hw ih =>
        refine PairClosure.step ih hk' ?_ hw
        intro hmem
        exact hv' (List.mem_cons_of_mem _ hmem)

theorem pairClosure_noexpand (g : Graph) (u v : Node) (rest : List (Node × Node))
    (V : List Node) (hcond : ¬(g.kindOf u = some Kind.FLOW ∧ u ∉ V)) :
    ∀ p, PairClosure g ((u, v) :: rest) V p ↔
      p = (u, v) ∨ PairClosure g rest V p := by
  intro p
  constructor
  · intro h
    induction h with
    | base hp =>
      rcases List.mem_cons.mp hp with h | h
      · exact Or.inl h
      · exact Or.inr (PairClosure.base h)
    | step hcl hk' hv' hw ih =>
      rcases ih with h | h
      · have hu : _ = u := congrArg Prod.fst h
        simp only at hu
        subst hu
        exact absurd ⟨hk', hv'⟩ hcond
      · exact Or.inr (PairClosure.step h hk' hv' hw)
  · intro h
    rcases h with h | h
    · exact PairClosure.base (h ▸ List.mem_cons_self _ _)
    · exact pairClosure_mono g (fun q hq => List.mem_cons_of_mem _ hq) p h

theorem mem_walkAux (g : Graph) :
    ∀ Q V (p : Node × Node), p ∈ walkAux g Q V ↔
      (PairClosure g Q V p ∧ g.deciderOf p.1 p.2 ≠ none) := by
  intro Q V
  induction Q, V using walkAux.induct g with
  | case1 V =>
    intro p
    rw [walkAux]
    simp only [List.not_mem_nil, false_iff, not_and]
    intro h
    exact absurd h (pairClosure_nil g V p)
  | case2 u v rest V hcond ih =>
    intro p
    rw [walkAux]
    rw [dif_pos hcond, List.mem_append]
    have hkeep : p ∈ (match g.deciderOf u v with
        | some _ => [(u, v)] | none => ([] : List (Node × Node))) ↔
        (p = (u, v) ∧ g.deciderOf u v ≠ none) := by
      cases hd : g.deciderOf u v <;> simp [hd]
    rw [hkeep, ih p, pairClosure_expand g u v rest V hcond.1 hcond.2 p]
    constructor
    · rintro (⟨rfl, hd⟩ | ⟨hcl, hd⟩)
      · exact ⟨Or.inl rfl, hd⟩
      · exact ⟨Or.inr hcl, hd⟩
    · rintro ⟨h | h, hd⟩
      · subst h
        exact Or.inl ⟨rfl, hd⟩
      · exact Or.inr ⟨h, hd⟩
  | case3 u v rest V hcond ih =>
    intro p
    rw [walkAux]
    rw [dif_neg hcond, List.mem_append]
    have hkeep : p ∈ (match g.deciderOf u v with
        | some _ => [(u, v)] | none => ([] : List (Node × Node))) ↔
        (p = (u, v) ∧ g.deciderOf u v ≠ none) := by
      cases hd : g.deciderOf u v <;> simp [hd]
    rw [hkeep, ih p, pairClosure_noexpand g u v rest V hcond p]
    constructor
    · rintro (⟨rfl, hd⟩ | ⟨hcl, hd⟩)
      · exact ⟨Or.inl rfl, hd⟩
      · exact ⟨Or.inr hcl, hd⟩
    · rintro ⟨h | h, hd⟩
      · subst h
        exact Or.inl ⟨rfl, hd⟩
      · exact Or.inr ⟨h, hd⟩

theorem pairClosure_top (g : Graph) (atom : Node) :
    ∀ p : Node × Node,
      PairClosure g ((g.preds atom).map (fun w => (w, atom))) [] p →
      ((p.2 = atom ∧ p.1 ∈ g.preds atom) ∨
        (FlowChain g atom p.2 ∧ p.1 ∈ g.preds p.2)) := by
  intro p h
  induction h with
  | base hp =>
    rcases List.mem_map.mp hp with ⟨w, hw, heq⟩
    left
    rw [← heq]
    exact ⟨rfl, hw⟩
  | step hcl hk hv hw ih =>
    rcases ih with ⟨heq, hpred⟩ | ⟨hchain, hpred⟩
    · right
      refine ⟨FlowChain.base (heq ▸ hpred) hk, hw⟩
    · right
      exact ⟨FlowChain.step hchain hpred hk, hw⟩

theorem flowChain_closure (g : Graph) (atom : Node) :
    ∀ f, FlowChain g atom f → ∀ w ∈ g.preds f,
      PairClosure g ((g.preds atom).map (fun x => (x, atom))) [] (w, f) := by
  intro f h
  induction h with
  | @base f0 hf hk =>
    intro w hw
    have hb : PairClosure g ((g.preds atom).map (fun x => (x, atom))) [] (f0, atom) :=
      PairClosure.base (List.mem_map.mpr ⟨_, hf, rfl⟩)
    exact PairClosure.step hb hk (List.not_mem_nil _) hw
  | @step f0 f1 hchain hf hk ih =>
    intro w hw
    exact PairClosure.step (ih f0 hf) hk (List.not_mem_nil _) hw

theorem pairClosure_top_iff (g : Graph) (atom : Node) (u v : Node) :
    PairClosure g ((g.preds atom).map (fun w => (w, atom))) [] (u, v) ↔
      ((v = atom ∧ u ∈ g.preds atom) ∨ (FlowChain g atom v ∧ u ∈ g.preds v)) := by
  constructor
  · exact pairClosure_top g atom (u, v)
  · rintro (⟨rfl, hu⟩ | ⟨hchain, hu⟩)
    · exact PairClosure.base (List.mem_map.mpr ⟨_, hu, rfl⟩)
    · exact flowChain_closure g atom v hchain u hu

theorem preds_nodup {g : Graph} (h : g.edges.Nodup) (x : Node) :
    (g.preds x).Nodup := by
  unfold Graph.preds
  refine List.Nodup.map_on ?_ (List.Nodup.filter _ h)
  intro p hp q hq hfst
  have hp2 := (List.mem_filter.mp hp).2
  have hq2 := (List.mem_filter.mp hq).2
  simp only [beq_iff_eq] at hp2 hq2
  cases p
  cases q
  simp only at hfst hp2 hq2
  rw [hfst, hp2, hq2]

theorem walkAux_output_origin (g : Graph) :
    ∀ Q V (p : Node × Node), p ∈ walkAux g Q V →
      p ∈ Q ∨ (g.kindOf p.2 = some Kind.FLOW ∧ p.2 ∉ V) := by
  intro Q V
  induction Q, V using walkAux.induct g with
  | case1 V =>
    intro p hp
    rw [walkAux] at hp
    cases hp
  | case2 u v rest V hcond ih =>
    intro p hp
    rw [walkAux, dif_pos hcond, List.mem_append] at hp
    rcases hp with hp | hp
    · have hpe : p = (u, v) := by
        cases hd : g.deciderOf u v
        · rw [hd] at hp
          cases hp
        · rw [hd] at hp
          simpa using hp
      exact Or.inl (hpe ▸ List.mem_cons_self _ _)
    · rcases ih p hp with h | h
      · rcases List.mem_append.mp h with h | h
        · exact Or.inl (List.mem_cons_of_mem _ h)
        · rcases List.mem_map.mp h with ⟨w, _, heq⟩
          right
          rw [← heq]
          exact ⟨hcond.1, hcond.2⟩
      · right
        exact ⟨h.1, fun hv => h.2 (List.mem_cons_of_mem _ hv)⟩
  | case3 u v rest V hcond ih =>
    intro p hp
    rw [walkAux, dif_neg hcond, List.mem_append] at hp
    rcases hp with hp | hp
    · have hpe : p = (u, v) := by
        cases hd : g.deciderOf u v
        · rw [hd] at hp
          cases hp
        · rw [hd] at hp
          simpa using hp
      exact Or.inl (hpe ▸ List.mem_cons_self _ _)
    · rcases ih p hp with h | h
      · exact Or.inl (List.mem_cons_of_mem _ h)
      · exact Or.inr h

theorem walkAux_nodup (g : Graph) (atom : Node)
    (hatom : g.kindOf atom ≠ some Kind.FLOW) (hedges : g.edges.Nodup) :
    ∀ Q V, Q.Nodup → (∀ p : Node × Node, p ∈ Q → p.2 = atom ∨ p.2 ∈ V) →
      (walkAux g Q V).Nodup := by
  intro Q V
  induction Q, V using walkAux.induct g with
  | case1 V =>
    intro _ _
    rw [walkAux]
    exact List.nodup_nil
  | case2 u v rest V hcond ih =>
    intro hnd hinv
    rw [walkAux, dif_pos hcond]
    obtain ⟨hhead, hrest⟩ := List.nodup_cons.mp hnd
    have hrecnd : (walkAux g (rest ++ (g.preds u).map (fun w => (w, u)))
        (u :: V)).Nodup := by
      apply ih
      · refine List.Nodup.append hrest ?_ ?_
        · exact List.Nodup.map (fun a b hab => congrArg Prod.fst hab)
            (preds_nodup hedges u)
        · intro p hp hp'
          rcases List.mem_map.mp hp' with ⟨w, _, heq⟩
          have hp2 : p.2 = u := by rw [← heq]
          rcases hinv p (List.mem_cons_of_mem _ hp) with h | h
          · have hu : u = atom := by
              rw [← hp2]
              exact h
            exact hatom (hu ▸ hcond.1)
          · exact hcond.2 (hp2 ▸ h)
      · intro p hp
        rcases List.mem_append.mp hp with h | h
        · rcases hinv p (List.mem_cons_of_mem _ h) with h' | h'
          · exact Or.inl h'
          · exact Or.inr (List.mem_cons_of_mem _ h')
        · rcases List.mem_map.mp h with ⟨w, _, heq⟩
          right
          rw [← heq]
          exact List.mem_cons_self _ _
    have hhm : ((u, v) : Node × Node) ∉ walkAux g
        (rest ++ (g.preds u).map (fun w => (w, u))) (u :: V) := by
      intro hmem
      rcases walkAux_output_origin g _ _ _ hmem with h | h
      · rcases List.mem_append.mp h with h | h
        · exact hhead h
        · rcases List.mem_map.mp h with ⟨w, _, heq⟩
          have hv : v = u := by
            have := congrArg Prod.snd heq
            simpa using this.symm
          rcases hinv (u, v) (List.mem_cons_self _ _) with h' | h'
          · refine hatom ?_
            have hu : u = atom := by
              rw [← hv]
              exact h'
            rw [← hu]
            exact hcond.1
          · exact hcond.2 (hv ▸ h')
      · rcases hinv (u, v) (List.mem_cons_self _ _) with h' | h'
        · have h'' : v = atom := h'
          exact hatom (h'' ▸ h.1)
        · exact h.2 (List.mem_cons_of_mem _ h')
    cases hd : g.deciderOf u v
    · simpa [hd] using hrecnd
    · simp only [hd]
      exact List.nodup_cons.mpr ⟨hhm, hrecnd⟩
  | case3 u v rest V hcond ih =>
    intro hnd hinv
    rw [walkAux, dif_neg hcond]
    obtain ⟨hhead, hrest⟩ := List.nodup_cons.mp hnd
    have hrecnd : (walkAux g rest V).Nodup := by
      apply ih hrest
      intro p hp
      exact hinv p (List.mem_cons_of_mem _ hp)
    have hhm : ((u, v) : Node × Node) ∉ walkAux g rest V := by
      intro hmem
      rcases walkAux_output_origin g _ _ _ hmem with h | h
      · exact hhead h
      · rcases hinv (u, v) (List.mem_cons_self _ _) with h' | h'
        · have h'' : v = atom := h'
          exact hatom (h'' ▸ h.1)
        · exact h.2 h'
    cases hd : g.deciderOf u v
    · simpa [hd] using hrecnd
    · simp only [hd]
      exact List.nodup_cons.mpr ⟨hhm, hrecnd⟩

/-- **C5.** The edge-decider collection for an atom (cached as its
`edge_deciders` metadata and returned by `Runtime.fetch_edge_deciders`)
processes exactly the decider-carrying edges into the atom from its direct
predecessors, plus — for every flow marker reached by transitively following
predecessor edges through flow nodes — the decider-carrying edges into that
flow node; and no traversed edge pair is processed twice (each flow is
expanded at most once). -/
theorem fetch_edge_deciders_spec (env : Env) (atom : Node)
    (hatom : env.graph.kindOf atom ≠ some Kind.FLOW)
    (hedges : env.graph.edges.Nodup) :
    (fetch_edge_deciders env atom =
      (walkAux env.graph ((env.graph.preds atom).map (fun u => (u, atom))) []).filterMap
        (fun p => (env.graph.deciderOf p.1 p.2).map
          (fun d => (p.1, env.graph.kindOf p.1, d)))) ∧
    (∀ u v, (u, v) ∈
        walkAux env.graph ((env.graph.preds atom).map (fun w => (w, atom))) [] ↔
      (env.graph.deciderOf u v ≠ none ∧
        ((v = atom ∧ u ∈ env.graph.preds atom) ∨
         (FlowChain env.graph atom v ∧ u ∈ env.graph.preds v)))) ∧
    (walkAux env.graph ((env.graph.preds atom).map (fun u => (u, atom))) []).Nodup := by
  refine ⟨rfl, ?_, ?_⟩
  · intro u v
    rw [mem_walkAux env.graph _ _ (u, v), pairClosure_top_iff env.graph atom u v]
    constructor
    · rintro ⟨hcl, hd⟩
      exact ⟨hd, hcl⟩
    · rintro ⟨hd, hcl⟩
      exact ⟨hcl, hd⟩
  · apply walkAux_nodup env.graph atom hatom hedges
    · exact List.Nodup.map (fun a b hab => congrArg Prod.fst hab)
        (preds_nodup hedges atom)
    · intro p hp
      rcases List.mem_map.mp hp with ⟨w, _, heq⟩
      left
      rw [← heq]

/-- **C6.** `Analyzer.is_success` returns `true` iff every atom node of the
execution graph has stored state `SUCCESS` or `IGNORE`. -/
theorem is_success_spec (env : Env) :
    is_success env = true ↔
      ∀ p ∈ env.graph.nodes, (p.2 = Kind.TASK ∨ p.2 = Kind.RETRY) →
        (env.storage.state p.1 = St.SUCCESS ∨ env.storage.state p.1 = St.IGNORE) := by
  unfold is_success iterate_nodes ATOMS Storage.get_atom_state
  rw [List.all_eq_true]
  constructor
  · intro h p hp hk
    have hf : p ∈ List.filter (fun p => decide (p.2 ∈ [Kind.TASK, Kind.RETRY]))
        env.graph.nodes :=
      List.mem_filter.mpr ⟨hp, by simpa using hk⟩
    have := h p.1 (List.mem_map.mpr ⟨p, hf, rfl⟩)
    simpa [or_comm] using this
  · intro h a ha
    rcases List.mem_map.mp ha with ⟨p, hp, rfl⟩
    have hf := List.mem_filter.mp hp
    have hk : p.2 = Kind.TASK ∨ p.2 = Kind.RETRY := by
      have := hf.2
      simpa using this
    simpa [or_comm] using h p hf.1 hk

/-! ### The graph flow pattern (`taskflow/patterns/graph_flow.py`) -/

/-- An item held in a graph flow (a task or subflow): its name and its
`requires` / `provides` symbol sets (symbols are numbered). -/
structure Item where
  name : Nat
  requires : List Nat
  provides : List Nat
deriving DecidableEq, Repr

/-- A networkx-style directed graph over items: `add_node` is idempotent and
`add_edge` inserts missing endpoints, as networkx's `DiGraph` does. -/
structure DiGraph where
  nodes : List Item
  edges : List (Item × Item)
deriving DecidableEq, Repr

def DiGraph.has_node (G : DiGraph) (n : Item) : Bool :=
  decide (n ∈ G.nodes)

def DiGraph.has_edge (G : DiGraph) (u v : Item) : Bool :=
  decide ((u, v) ∈ G.edges)

def DiGraph.add_node (G : DiGraph) (n : Item) : DiGraph :=
  if n ∈ G.nodes then G else { G with nodes := G.nodes ++ [n] }

def DiGraph.add_edge (G : DiGraph) (u v : Item) : DiGraph :=
  let G := (G.add_node u).add_node v
  if (u, v) ∈ G.edges then G else { G with edges := G.edges ++ [(u, v)] }

/-- Modelled from the spec: networkx's `is_directed_acyclic_graph`, used by
`Flow._validate`; realized as "no node reaches itself through a nonempty
edge path". -/
def is_directed_acyclic_graph (G : DiGraph) : Bool :=
  G.nodes.all (fun n => decide (n ∉ closureFrom G.edges (adjacents G.edges n)))

/-- The errors graph-flow mutations can raise. -/
inductive FlowErr where
  | DependencyFailure
  | ValueError
deriving DecidableEq, Repr

/-- The graph flow pattern: a frozen digraph of items. Methods return the
resulting flow state together with the raised error, if any, so that
atomicity on error is an actual statement about the returned state. -/
structure GFlow where
  graph : DiGraph
deriving DecidableEq, Repr

/-- `Flow.__init__`: an empty frozen digraph. -/
def GFlow.init : GFlow := { graph := { nodes := [], edges := [] } }

/-- `Flow._swap(replacement_graph)`: validate the replacement (acyclicity)
and only then replace the underlying graph; on validation failure the stored
graph is left untouched and `DependencyFailure` is raised. -/
def GFlow.swapG (f : GFlow) (tmp : DiGraph) : GFlow × Option FlowErr :=
  if is_directed_acyclic_graph tmp then ({ graph := tmp }, none)
  else (f, some FlowErr.DependencyFailure)

/-- `Flow.link(u, v)`: add a dependency edge on a temporary copy, then swap. -/
def GFlow.link (f : GFlow) (u v : Item) : GFlow × Option FlowErr :=
  if ¬ (f.graph.has_node u = true) then (f, some FlowErr.ValueError)
  else if ¬ (f.graph.has_node v = true) then (f, some FlowErr.ValueError)
  else if f.graph.has_edge u v then (f, none)
  else f.swapG (f.graph.add_edge u v)

/-- Dictionary insert (`provided[value] = node`): newest binding wins. -/
def dictInsert (m : List (Nat × Item)) (k : Nat) (x : Item) : List (Nat × Item) :=
  (k, x) :: m

/-- Dictionary lookup (`provided[value]` / `value in provided`). -/
def dictLookup (m : List (Nat × Item)) (k : Nat) : Option Item :=
  (m.find? (fun p => p.1 == k)).map (·.2)

/-- `update_requirements(node)`: append `(value, node)` for every required
value of the node to the requirements multimap. -/
def multiAdd (m : List (Nat × Item)) (node : Item) : List (Nat × Item) :=
  m ++ node.requires.map (fun v => (v, node))

/-- `requirements[value]`: all nodes recorded as requiring `value`, in
insertion order. -/
def multiGet (m : List (Nat × Item)) (k : Nat) : List Item :=
  (m.filter (fun p => p.1 == k)).map (·.2)

/-- The `for node in self: update_requirements(node)` scan of `Flow.add`. -/
def initRequirements (f : GFlow) : List (Nat × Item) :=
  f.graph.nodes.foldl multiAdd []

/-- The `for value in node.provides: provided[value] = node` scan over one
node. -/
def provScan (m : List (Nat × Item)) (node : Item) : List (Nat × Item) :=
  node.provides.foldl (fun m v => dictInsert m v node) m

/-- The `for node in self: ... provided[value] = node` scan of `Flow.add`. -/
def initProvided (f : GFlow) : List (Nat × Item) :=
  f.graph.nodes.foldl provScan []

/-- The duplicate-provider check of `Flow.add`: walk the item's provides in
order, raising `DependencyFailure` on a value that is already provided, and
otherwise recording the item as the provider. -/
def checkProvides (item : Item) (provided : List (Nat × Item)) :
    List Nat → Except FlowErr (List (Nat × Item))
  | [] => Except.ok provided
  | v :: rest =>
    if (dictLookup provided v).isSome then Except.error FlowErr.DependencyFailure
    else checkProvides item (dictInsert provided v item) rest

/-- The `for value in item.requires: ... add_edge(provided[value], item)`
loop of `Flow.add`. -/
def addRequireEdges (tmp : DiGraph) (provided : List (Nat × Item)) (item : Item) :
    DiGraph :=
  item.requires.foldl (fun G v =>
    match dictLookup provided v with
    | some p => G.add_edge p item
    | none => G) tmp

/-- The `for value in item.provides: for node in requirements[value]:
add_edge(item, node)` loop of `Flow.add`. -/
def addProvideEdges (tmp : DiGraph) (reqs : List (Nat × Item)) (item : Item) :
    DiGraph :=
  item.provides.foldl (fun G v =>
    (multiGet reqs v).foldl (fun G node => G.add_edge item node) G) tmp

/-- The per-item loop of `Flow.add`, threading the temporary graph, the
provider map and the requirements multimap. -/
def addLoop (tmp : DiGraph) (provided reqs : List (Nat × Item)) :
    List Item → Except FlowErr DiGraph
  | [] => Except.ok tmp
  | item :: rest =>
    let tmp1 := tmp.add_node item
    let reqs1 := multiAdd reqs item
    match checkProvides item provided item.provides with
    | Except.error e => Except.error e
    | Except.ok provided1 =>
      let tmp2 := addRequireEdges tmp1 provided1 item
      let tmp3 := addProvideEdges tmp2 reqs1 item
      addLoop tmp3 provided1 reqs1 rest

/-- `Flow.add(*items)`: filter out items already present, build a temporary
graph with the dependency edges resolved via provides/requires, then swap. -/
def GFlow.add (f : GFlow) (items : List Item) : GFlow × Option FlowErr :=
  let items := items.filter (fun i => !(f.graph.has_node i))
  if items = [] then (f, none)
  else
    match addLoop f.graph (initProvided f) (initRequirements f) items with
    | Except.error e => (f, some e)
    | Except.ok tmp => f.swapG tmp

/-- `Flow.provides`: the union of the provides of all contained nodes. -/
def GFlow.provides (f : GFlow) : List Nat :=
  f.graph.nodes.flatMap (·.provides)

/-- `Flow.requires`: the union of the requires of all contained nodes, minus
the flow's own provides. -/
def GFlow.requires (f : GFlow) : List Nat :=
  (f.graph.nodes.flatMap (·.requires)).filter (fun s => decide (s ∉ f.provides))

/-- The flows reachable from an empty flow through any sequence of `link`
and `add` calls (each call's resulting state, whether it raised or not). -/
inductive FlowReachable : GFlow → Prop where
  | init : FlowReachable GFlow.init
  | link {f f' : GFlow} {u v : Item} {e : Option FlowErr} :
      FlowReachable f → f.link u v = (f', e) → FlowReachable f'
  | add {f f' : GFlow} {items : List Item} {e : Option FlowErr} :
      FlowReachable f → f.add items = (f', e) → FlowReachable f'

/-- Well-formedness of a digraph: every edge endpoint is a node. -/
def WFG (G : DiGraph) : Prop :=
  ∀ e ∈ G.edges, e.1 ∈ G.nodes ∧ e.2 ∈ G.nodes

/-- Every symbol has at most one provider among the given nodes. -/
def UniqProv (nodes : List Item) : Prop :=
  ∀ p₁ ∈ nodes, ∀ p₂ ∈ nodes, ∀ s : Nat,
    s ∈ p₁.provides → s ∈ p₂.provides → p₁ = p₂

/-- Every provider/requirer pair of the graph is linked by an edge. -/
def DepEdges (G : DiGraph) : Prop :=
  ∀ p ∈ G.nodes, ∀ c ∈ G.nodes, ∀ s : Nat,
    s ∈ p.provides → s ∈ c.requires → (p, c) ∈ G.edges

theorem add_node_nodes (G : DiGraph) (n : Item) :
    ∀ x, x ∈ (G.add_node n).nodes ↔ (x ∈ G.nodes ∨ x = n) := by
  intro x
  unfold DiGraph.add_node
  by_cases h : n ∈ G.nodes
  · rw [if_pos h]
    constructor
    · exact Or.inl
    · rintro (hx | rfl)
      · exact hx
      · exact h
  · rw [if_neg h]
    simp [List.mem_append]

theorem add_node_edges (G : DiGraph) (n : Item) :
    (G.add_node n).edges = G.edges := by
  unfold DiGraph.add_node
  by_cases h : n ∈ G.nodes
  · rw [if_pos h]
  · rw [if_neg h]

theorem add_edge_nodes (G : DiGraph) (u v : Item) :
    ∀ x, x ∈ (G.add_edge u v).nodes ↔ (x ∈ G.nodes ∨ x = u ∨ x = v) := by
  intro x
  unfold DiGraph.add_edge
  by_cases h : (u, v) ∈ ((G.add_node u).add_node v).edges
  · simp only [if_pos h]
    rw [add_node_nodes, add_node_nodes]
    tauto
  · simp only [if_neg h]
    rw [add_node_nodes, add_node_nodes]
    tauto

theorem add_edge_nodes_of_mem (G : DiGraph) (u v : Item)
    (hu : u ∈ G.nodes) (hv : v ∈ G.nodes) :
    (G.add_edge u v).nodes = G.nodes := by
  unfold DiGraph.add_edge DiGraph.add_node
  rw [if_pos hu, if_pos hv]
  by_cases h : (u, v) ∈ G.edges
  · rw [if_pos h]
  · rw [if_neg h]

theorem add_edge_edges (G : DiGraph) (u v : Item) :
    ∀ e, e ∈ (G.add_edge u v).edges ↔ (e ∈ G.edges ∨ e = (u, v)) := by
  intro e
  have hE : ((G.add_node u).add_node v).edges = G.edges := by
    rw [add_node_edges, add_node_edges]
  by_cases h : (u, v) ∈ G.edges
  · simp only [DiGraph.add_edge, hE, if_pos h]
    constructor
    · exact Or.inl
    · rintro (he | rfl)
      · exact he
      · exact h
  · simp only [DiGraph.add_edge, hE, if_neg h]
    simp [List.mem_append]

theorem foldl_preserves {α β : Type} (P : α → Prop) (step : α → β → α)
    (h : ∀ a b, P a → P (step a b)) :
    ∀ (l : List β) (a : α), P a → P (l.foldl step a) := by
  intro l
  induction l with
  | nil => intro a ha; exact ha
  | cons b t ih => intro a ha; exact ih (step a b) (h a b ha)

theorem dictLookup_insert (m : List (Nat × Item)) (k : Nat) (x : Item) (s : Nat) :
    dictLookup (dictInsert m k x) s = if s = k then some x else dictLookup m s := by
  unfold dictInsert dictLookup
  by_cases h : s = k
  · subst h
    simp [List.find?]
  · have hk : (k == s) = false := by
      simp only [beq_eq_false_iff_ne, ne_eq]
      intro hk
      exact h hk.symm
    simp [List.find?, hk, h]

theorem provFoldAux_lookup (node : Item) :
    ∀ (pl : List Nat) (m : List (Nat × Item)) (s : Nat),
      dictLookup (pl.foldl (fun m v => dictInsert m v node) m) s =
        if s ∈ pl then some node else dictLookup m s := by
  intro pl
  induction pl with
  | nil =>
    intro m s
    simp
  | cons v rest ih =>
    intro m s
    rw [List.foldl_cons, ih, dictLookup_insert]
    by_cases h1 : s ∈ rest
    · simp [h1, List.mem_cons]
    · by_cases h2 : s = v
      · simp [h1, h2]
      · simp [h1, h2, List.mem_cons]

theorem provScan_lookup (m : List (Nat × Item)) (node : Item) (s : Nat) :
    dictLookup (provScan m node) s =
      if s ∈ node.provides then some node else dictLookup m s := by
  unfold provScan
  exact provFoldAux_lookup node node.provides m s

theorem initProvided_fold_sound :
    ∀ (L : List Item) (m : List (Nat × Item)) (s : Nat) (p : Item),
      dictLookup (L.foldl provScan m) s = some p →
        ((p ∈ L ∧ s ∈ p.provides) ∨ dictLookup m s = some p) := by
  intro L
  induction L with
  | nil =>
    intro m s p h
    exact Or.inr h
  | cons node rest ih =>
    intro m s p h
    rw [List.foldl_cons] at h
    rcases ih (provScan m node) s p h with ⟨hp, hs⟩ | h'
    · exact Or.inl ⟨List.mem_cons_of_mem _ hp, hs⟩
    · rw [provScan_lookup] at h'
      by_cases hmem : s ∈ node.provides
      · rw [if_pos hmem] at h'
        have : p = node := by injection h'.symm
        exact Or.inl ⟨this ▸ List.mem_cons_self _ _, this ▸ hmem⟩
      · rw [if_neg hmem] at h'
        exact Or.inr h'

theorem initProvided_fold_isSome_mono :
    ∀ (L : List Item) (m : List (Nat × Item)) (s : Nat),
      (dictLookup m s).isSome = true →
      (dictLookup (L.foldl provScan m) s).isSome = true := by
  intro L
  induction L with
  | nil =>
    intro m s h
    exact h
  | cons node rest ih =>
    intro m s h
    rw [List.foldl_cons]
    refine ih (provScan m node) s ?_
    rw [provScan_lookup]
    by_cases hmem : s ∈ node.provides
    · rw [if_pos hmem]
      rfl
    · rw [if_neg hmem]
      exact h

theorem initProvided_fold_cover :
    ∀ (L : List Item) (m : List (Nat × Item)) (p : Item) (s : Nat),
      p ∈ L → s ∈ p.provides →
      (dictLookup (L.foldl provScan m) s).isSome = true := by
  intro L
  induction L with
  | nil =>
    intro m p s hp _
    cases hp
  | cons node rest ih =>
    intro m p s hp hs
    rw [List.foldl_cons]
    rcases List.mem_cons.mp hp with rfl | hp'
    · refine initProvided_fold_isSome_mono rest (provScan m p) s ?_
      rw [provScan_lookup, if_pos hs]
      rfl
    · exact ih (provScan m node) p s hp' hs

theorem multiGet_multiAdd (m : List (Nat × Item)) (node : Item) (s : Nat) (c : Item) :
    c ∈ multiGet (multiAdd m node) s ↔
      (c ∈ multiGet m s ∨ (c = node ∧ s ∈ node.requires)) := by
  unfold multiGet multiAdd
  rw [List.filter_append, List.map_append, List.mem_append]
  constructor
  · rintro (h | h)
    · exact Or.inl h
    · rcases List.mem_map.mp h with ⟨q, hq, hq2⟩
      have hqf := List.mem_filter.mp hq
      rcases List.mem_map.mp hqf.1 with ⟨v, hv, hv2⟩
      right
      have h1 : q.1 = s := by
        have := hqf.2
        simpa using this
      constructor
      · rw [← hq2, ← hv2]
      · rw [← hv2] at h1
        simp only at h1
        rw [← h1]
        exact hv
  · rintro (h | ⟨rfl, hs⟩)
    · exact Or.inl h
    · right
      refine List.mem_map.mpr ⟨(s, c), List.mem_filter.mpr ⟨?_, by simp⟩, rfl⟩
      exact List.mem_map.mpr ⟨s, hs, rfl⟩

theorem initReq_fold :
    ∀ (L : List Item) (m : List (Nat × Item)) (s : Nat) (c : Item),
      c ∈ multiGet (L.foldl multiAdd m) s ↔
        (c ∈ multiGet m s ∨ (c ∈ L ∧ s ∈ c.requires)) := by
  intro L
  induction L with
  | nil =>
    intro m s c
    simp
  | cons node rest ih =>
    intro m s c
    rw [List.foldl_cons, ih, multiGet_multiAdd]
    constructor
    · rintro ((h | ⟨rfl, hs⟩) | ⟨hc, hs⟩)
      · exact Or.inl h
      · exact Or.inr ⟨List.mem_cons_self _ _, hs⟩
      · exact Or.inr ⟨List.mem_cons_of_mem _ hc, hs⟩
    · rintro (h | ⟨hc, hs⟩)
      · exact Or.inl (Or.inl h)
      · rcases List.mem_cons.mp hc with rfl | hc'
        · exact Or.inl (Or.inr ⟨rfl, hs⟩)
        · exact Or.inr ⟨hc', hs⟩

theorem checkProvides_ok (item : Item) :
    ∀ (pl : List Nat) (provided provided' : List (Nat × Item)),
      checkProvides item provided pl = Except.ok provided' →
        (∀ s ∈ pl, dictLookup provided s = none) ∧
        (∀ s, dictLookup provided' s =
          if s ∈ pl then some item else dictLookup provided s) := by
  intro pl
  induction pl with
  | nil =>
    intro provided provided' h
    rw [checkProvides] at h
    injection h with h
    subst h
    refine ⟨fun s hs => absurd hs (List.not_mem_nil s), fun s => ?_⟩
    simp
  | cons v rest ih =>
    intro provided provided' h
    rw [checkProvides] at h
    by_cases hv : (dictLookup provided v).isSome = true
    · rw [if_pos hv] at h
      cases h
    · rw [if_neg hv] at h
      have hvnone : dictLookup provided v = none :=
        Option.not_isSome_iff_eq_none.mp hv
      obtain ⟨h1, h2⟩ := ih (dictInsert provided v item) provided' h
      constructor
      · intro s hs
        rcases List.mem_cons.mp hs with rfl | hs'
        · exact hvnone
        · have := h1 s hs'
          rw [dictLookup_insert] at this
          by_cases hsv : s = v
          · rw [if_pos hsv] at this
            cases this
          · rw [if_neg hsv] at this
            exact this
      · intro s
        rw [h2 s, dictLookup_insert]
        by_cases hs1 : s ∈ rest
        · simp [hs1, List.mem_cons]
        · by_cases hs2 : s = v
          · simp [hs1, hs2]
          · simp [hs1, hs2, List.mem_cons]

theorem addRequireEdges_fold_nodes (item : Item) (provided : List (Nat × Item)) :
    ∀ (rl : List Nat) (G : DiGraph),
      item ∈ G.nodes → (∀ v p, dictLookup provided v = some p → p ∈ G.nodes) →
      (rl.foldl (fun G v =>
        match dictLookup provided v with
        | some p => G.add_edge p item
        | none => G) G).nodes = G.nodes := by
  intro rl
  induction rl with
  | nil =>
    intro G _ _
    rfl
  | cons v rest ih =>
    intro G hitem hprov
    rw [List.foldl_cons]
    cases hl : dictLookup provided v with
    | none =>
      simp only [hl]
      exact ih G hitem hprov
    | some p =>
      simp only [hl]
      have hnodes : (G.add_edge p item).nodes = G.nodes :=
        add_edge_nodes_of_mem G p item (hprov v p hl) hitem
      rw [ih (G.add_edge p item) (by rw [hnodes]; exact hitem)
        (fun v' p' hp' => by rw [hnodes]; exact hprov v' p' hp'), hnodes]

theorem addRequireEdges_fold_edges (item : Item) (provided : List (Nat × Item)) :
    ∀ (rl : List Nat) (G : DiGraph) (e : Item × Item),
      e ∈ (rl.foldl (fun G v =>
        match dictLookup provided v with
        | some p => G.add_edge p item
        | none => G) G).edges ↔
      (e ∈ G.edges ∨
        ∃ v ∈ rl, ∃ p, dictLookup provided v = some p ∧ e = (p, item)) := by
  intro rl
  induction rl with
  | nil =>
    intro G e
    simp
  | cons v rest ih =>
    intro G e
    rw [List.foldl_cons]
    cases hl : dictLookup provided v with
    | none =>
      simp only [hl]
      rw [ih G e]
      constructor
      · rintro (h | ⟨v', hv', p, hp, he⟩)
        · exact Or.inl h
        · exact Or.inr ⟨v', List.mem_cons_of_mem _ hv', p, hp, he⟩
      · rintro (h | ⟨v', hv', p, hp, he⟩)
        · exact Or.inl h
        · rcases List.mem_cons.mp hv' with rfl | hv''
          · rw [hl] at hp
            cases hp
          · exact Or.inr ⟨v', hv'', p, hp, he⟩
    | some p =>
      simp only [hl]
      rw [ih (G.add_edge p item) e]
      constructor
      · rintro (h | ⟨v', hv', p', hp', he⟩)
        · rcases (add_edge_edges G p item e).mp h with h' | rfl
          · exact Or.inl h'
          · exact Or.inr ⟨v, List.mem_cons_self _ _, p, hl, rfl⟩
        · exact Or.inr ⟨v', List.mem_cons_of_mem _ hv', p', hp', he⟩
      · rintro (h | ⟨v', hv', p', hp', he⟩)
        · exact Or.inl ((add_edge_edges G p item e).mpr (Or.inl h))
        · rcases List.mem_cons.mp hv' with rfl | hv''
          · rw [hl] at hp'
            injection hp' with hp'
            subst hp'
            exact Or.inl ((add_edge_edges G p item e).mpr (Or.inr he))
          · exact Or.inr ⟨v', hv'', p', hp', he⟩

theorem edge_fold_cs_nodes (item : Item) :
    ∀ (cs : List Item) (G : DiGraph),
      item ∈ G.nodes → (∀ c ∈ cs, c ∈ G.nodes) →
      (cs.foldl (fun G c => G.add_edge item c) G).nodes = G.nodes := by
  intro cs
  induction cs with
  | nil =>
    intro G _ _
    rfl
  | cons c rest ih =>
    intro G hitem hcs
    rw [List.foldl_cons]
    have hnodes : (G.add_edge item c).nodes = G.nodes :=
      add_edge_nodes_of_mem G item c hitem (hcs c (List.mem_cons_self _ _))
    rw [ih (G.add_edge item c) (by rw [hnodes]; exact hitem)
      (fun c' hc' => by rw [hnodes]; exact hcs c' (List.mem_cons_of_mem _ hc')), hnodes]

theorem edge_fold_cs_edges (item : Item) :
    ∀ (cs : List Item) (G : DiGraph) (e : Item × Item),
      e ∈ (cs.foldl (fun G c => G.add_edge item c) G).edges ↔
        (e ∈ G.edges ∨ ∃ c ∈ cs, e = (item, c)) := by
  intro cs
  induction cs with
  | nil =>
    intro G e
    simp
  | cons c rest ih =>
    intro G e
    rw [List.foldl_cons, ih (G.add_edge item c) e]
    constructor
    · rintro (h | ⟨c', hc', he⟩)
      · rcases (add_edge_edges G item c e).mp h with h' | rfl
        · exact Or.inl h'
        · exact Or.inr ⟨c, List.mem_cons_self _ _, rfl⟩
      · exact Or.inr ⟨c', List.mem_cons_of_mem _ hc', he⟩
    · rintro (h | ⟨c', hc', he⟩)
      · exact Or.inl ((add_edge_edges G item c e).mpr (Or.inl h))
      · rcases List.mem_cons.mp hc' with heq | hc''
        · exact Or.inl ((add_edge_edges G item c e).mpr (Or.inr (heq ▸ he)))
        · exact Or.inr ⟨c', hc'', he⟩

theorem addProvideEdges_fold_nodes (item : Item) (reqs : List (Nat × Item)) :
    ∀ (pl : List Nat) (G : DiGraph),
      item ∈ G.nodes → (∀ s c, c ∈ multiGet reqs s → c ∈ G.nodes) →
      (pl.foldl (fun G v =>
        (multiGet reqs v).foldl (fun G node => G.add_edge item node) G) G).nodes =
        G.nodes := by
  intro pl
  induction pl with
  | nil =>
    intro G _ _
    rfl
  | cons v rest ih =>
    intro G hitem hreqs
    rw [List.foldl_cons]
    have hnodes : ((multiGet reqs v).foldl (fun G node => G.add_edge item node) G).nodes
        = G.nodes :=
      edge_fold_cs_nodes item (multiGet reqs v) G hitem (fun c hc => hreqs v c hc)
    rw [ih _ (by rw [hnodes]; exact hitem)
      (fun s c hc => by rw [hnodes]; exact hreqs s c hc), hnodes]

theorem addProvideEdges_fold_edges (item : Item) (reqs : List (Nat × Item)) :
    ∀ (pl : List Nat) (G : DiGraph) (e : Item × Item),
      e ∈ (pl.foldl (fun G v =>
        (multiGet reqs v).foldl (fun G node => G.add_edge item node) G) G).edges ↔
      (e ∈ G.edges ∨ ∃ s ∈ pl, ∃ c ∈ multiGet reqs s, e = (item, c)) := by
  intro pl
  induction pl with
  | nil =>
    intro G e
    simp
  | cons v rest ih =>
    intro G e
    rw [List.foldl_cons, ih _ e]
    rw [edge_fold_cs_edges item (multiGet reqs v) G e]
    constructor
    · rintro ((h | ⟨c, hc, he⟩) | ⟨s, hs, c, hc, he⟩)
      · exact Or.inl h
      · exact Or.inr ⟨v, List.mem_cons_self _ _, c, hc, he⟩
      · exact Or.inr ⟨s, List.mem_cons_of_mem _ hs, c, hc, he⟩
    · rintro (h | ⟨s, hs, c, hc, he⟩)
      · exact Or.inl (Or.inl h)
      · rcases List.mem_cons.mp hs with rfl | hs'
        · exact Or.inl (Or.inr ⟨c, hc, he⟩)
        · exact Or.inr ⟨s, hs', c, hc, he⟩

/-- The invariant-preservation lemma for the per-item loop of `Flow.add`:
from a consistent provider map, requirements multimap and graph, a
successful run produces a graph whose nodes are the old nodes plus the
processed items, with unique providers, all dependency edges installed, and
well-formed edges. -/
theorem addLoop_spec :
    ∀ (rem : List Item) (tmp : DiGraph) (provided reqs : List (Nat × Item))
      (G : DiGraph),
      addLoop tmp provided reqs rem = Except.ok G →
      (∀ s p, dictLookup provided s = some p → p ∈ tmp.nodes ∧ s ∈ p.provides) →
      (∀ p ∈ tmp.nodes, ∀ s ∈ p.provides, (dictLookup provided s).isSome = true) →
      (∀ s c, c ∈ multiGet reqs s ↔ (c ∈ tmp.nodes ∧ s ∈ c.requires)) →
      UniqProv tmp.nodes → DepEdges tmp → WFG tmp →
      ((∀ x, x ∈ G.nodes ↔ (x ∈ tmp.nodes ∨ x ∈ rem)) ∧
        UniqProv G.nodes ∧ DepEdges G ∧ WFG G) := by
  intro rem
  induction rem with
  | nil =>
    intro tmp provided reqs G h hA1 hA2 hA3 hA4 hA5 hA6
    rw [addLoop] at h
    injection h with h
    subst h
    exact ⟨fun x => by simp, hA4, hA5, hA6⟩
  | cons item rest ih =>
    intro tmp provided reqs G h hA1 hA2 hA3 hA4 hA5 hA6
    rw [addLoop] at h
    cases hcp : checkProvides item provided item.provides with
    | error e =>
      rw [hcp] at h
      cases h
    | ok provided1 =>
      rw [hcp] at h
      obtain ⟨hP1, hP2⟩ := checkProvides_ok item item.provides provided provided1 hcp
      have hnodes1 : ∀ x, x ∈ (tmp.add_node item).nodes ↔ (x ∈ tmp.nodes ∨ x = item) :=
        add_node_nodes tmp item
      have hedges1 : (tmp.add_node item).edges = tmp.edges := add_node_edges tmp item
      have hitem1 : item ∈ (tmp.add_node item).nodes :=
        (hnodes1 item).mpr (Or.inr rfl)
      have hA1' : ∀ s p, dictLookup provided1 s = some p →
          p ∈ (tmp.add_node item).nodes ∧ s ∈ p.provides := by
        intro s p hp
        rw [hP2 s] at hp
        by_cases hs : s ∈ item.provides
        · rw [if_pos hs] at hp
          injection hp with hp
          subst hp
          exact ⟨hitem1, hs⟩
        · rw [if_neg hs] at hp
          obtain ⟨hpn, hps⟩ := hA1 s p hp
          exact ⟨(hnodes1 p).mpr (Or.inl hpn), hps⟩
      have hA2' : ∀ p ∈ (tmp.add_node item).nodes, ∀ s ∈ p.provides,
          (dictLookup provided1 s).isSome = true := by
        intro p hp s hs
        rw [hP2 s]
        by_cases hsi : s ∈ item.provides
        · rw [if_pos hsi]
          rfl
        · rw [if_neg hsi]
          rcases (hnodes1 p).mp hp with hpn | heq
          · exact hA2 p hpn s hs
          · exact absurd (heq ▸ hs) hsi
      have hA4' : UniqProv (tmp.add_node item).nodes := by
        intro p1 hp1 p2 hp2 s hs1 hs2
        rcases (hnodes1 p1).mp hp1 with h1 | h1
        · rcases (hnodes1 p2).mp hp2 with h2 | h2
          · exact hA4 p1 h1 p2 h2 s hs1 hs2
          · subst h2
            have hsome := hA2 p1 h1 s hs1
            rw [hP1 s hs2] at hsome
            cases hsome
        · rcases (hnodes1 p2).mp hp2 with h2 | h2
          · subst h1
            have hsome := hA2 p2 h2 s hs2
            rw [hP1 s hs1] at hsome
            cases hsome
          · rw [h1, h2]
      have hA3' : ∀ s c, c ∈ multiGet (multiAdd reqs item) s ↔
          (c ∈ (tmp.add_node item).nodes ∧ s ∈ c.requires) := by
        intro s c
        rw [multiGet_multiAdd, hA3 s c, hnodes1 c]
        constructor
        · rintro (⟨hc, hs⟩ | ⟨heq, hs⟩)
          · exact ⟨Or.inl hc, hs⟩
          · exact ⟨Or.inr heq, heq ▸ hs⟩
        · rintro ⟨hc | heq, hs⟩
          · exact Or.inl ⟨hc, hs⟩
          · exact Or.inr ⟨heq, heq ▸ hs⟩
      have hnodes2 : (addRequireEdges (tmp.add_node item) provided1 item).nodes =
          (tmp.add_node item).nodes :=
        addRequireEdges_fold_nodes item provided1 item.requires (tmp.add_node item)
          hitem1 (fun v p hp => (hA1' v p hp).1)
      have hedges2 : ∀ e,
          e ∈ (addRequireEdges (tmp.add_node item) provided1 item).edges ↔
          (e ∈ (tmp.add_node item).edges ∨
            ∃ v ∈ item.requires, ∃ p, dictLookup provided1 v = some p ∧
              e = (p, item)) :=
        addRequireEdges_fold_edges item provided1 item.requires (tmp.add_node item)
      have hitem2 : item ∈ (addRequireEdges (tmp.add_node item) provided1 item).nodes := by
        rw [hnodes2]
        exact hitem1
      have hnodes3 : (addProvideEdges (addRequireEdges (tmp.add_node item) provided1 item)
          (multiAdd reqs item) item).nodes =
          (addRequireEdges (tmp.add_node item) provided1 item).nodes :=
        addProvideEdges_fold_nodes item (multiAdd reqs item) item.provides _ hitem2
          (fun s c hc => by rw [hnodes2]; exact ((hA3' s c).mp hc).1)
      have hedges3 : ∀ e,
          e ∈ (addProvideEdges (addRequireEdges (tmp.add_node item) provided1 item)
            (multiAdd reqs item) item).edges ↔
          (e ∈ (addRequireEdges (tmp.add_node item) provided1 item).edges ∨
            ∃ s ∈ item.provides, ∃ c ∈ multiGet (multiAdd reqs item) s,
              e = (item, c)) :=
        addProvideEdges_fold_edges item (multiAdd reqs item) item.provides _
      have hnodes3' : ∀ x, x ∈ (addProvideEdges
          (addRequireEdges (tmp.add_node item) provided1 item)
          (multiAdd reqs item) item).nodes ↔ (x ∈ tmp.nodes ∨ x = item) := by
        intro x
        rw [hnodes3, hnodes2]
        exact hnodes1 x
      have hA5' : DepEdges (addProvideEdges
          (addRequireEdges (tmp.add_node item) provided1 item)
          (multiAdd reqs item) item) := by
        intro p hp c hc s hsp hsc
        rw [hnodes3'] at hp hc
        rw [hedges3]
        rcases hc with hc | hceq
        · rcases hp with hp | hpeq
          · -- both old nodes: the old edge persists
            left
            rw [hedges2]
            left
            rw [hedges1]
            exact hA5 p hp c hc s hsp hsc
          · -- p = item, c old: provide-edge stage installs (item, c)
            right
            subst hpeq
            refine ⟨s, hsp, c, ?_, rfl⟩
            rw [hA3' s c]
            exact ⟨(hnodes1 c).mpr (Or.inl hc), hsc⟩
        · -- c = item: require-edge stage installs (p, item)
          subst hceq
          left
          rw [hedges2]
          right
          have hsome := hA2' p ((hnodes1 p).mpr hp) s hsp
          cases hl : dictLookup provided1 s with
          | none =>
            rw [hl] at hsome
            cases hsome
          | some p' =>
            obtain ⟨hp'n, hp's⟩ := hA1' s p' hl
            have hpp : p' = p :=
              hA4' p' hp'n p ((hnodes1 p).mpr hp) s hp's hsp
            exact ⟨s, hsc, p', hl, by rw [hpp]⟩
      have hA6' : WFG (addProvideEdges
          (addRequireEdges (tmp.add_node item) provided1 item)
          (multiAdd reqs item) item) := by
        intro e he
        rw [hedges3] at he
        rcases he with he | ⟨s, _, c, hc, heq⟩
        · rw [hedges2] at he
          rcases he with he | ⟨v, _, p, hp, heq⟩
          · rw [hedges1] at he
            obtain ⟨h1, h2⟩ := hA6 e he
            constructor
            · rw [hnodes3', ]
              exact Or.inl h1
            · rw [hnodes3']
              exact Or.inl h2
          · subst heq
            constructor
            · rw [hnodes3, hnodes2]
              exact (hA1' v p hp).1
            · rw [hnodes3']
              exact Or.inr rfl
        · subst heq
          constructor
          · rw [hnodes3']
            exact Or.inr rfl
          · rw [hnodes3, hnodes2]
            exact ((hA3' s c).mp hc).1
      have hA1'' : ∀ s p, dictLookup provided1 s = some p →
          p ∈ (addProvideEdges (addRequireEdges (tmp.add_node item) provided1 item)
            (multiAdd reqs item) item).nodes ∧ s ∈ p.provides := by
        intro s p hp
        obtain ⟨h1, h2⟩ := hA1' s p hp
        refine ⟨?_, h2⟩
        rw [hnodes3, hnodes2]
        exact h1
      have hA2'' : ∀ p ∈ (addProvideEdges
          (addRequireEdges (tmp.add_node item) provided1 item)
          (multiAdd reqs item) item).nodes, ∀ s ∈ p.provides,
          (dictLookup provided1 s).isSome = true := by
        intro p hp s hs
        rw [hnodes3, hnodes2] at hp
        exact hA2' p hp s hs
      have hA3'' : ∀ s c, c ∈ multiGet (multiAdd reqs item) s ↔
          (c ∈ (addProvideEdges (addRequireEdges (tmp.add_node item) provided1 item)
            (multiAdd reqs item) item).nodes ∧ s ∈ c.requires) := by
        intro s c
        rw [hA3' s c, hnodes3, hnodes2]
      have hA4'' : UniqProv (addProvideEdges
          (addRequireEdges (tmp.add_node item) provided1 item)
          (multiAdd reqs item) item).nodes := by
        intro p1 hp1 p2 hp2 s hs1 hs2
        rw [hnodes3, hnodes2] at hp1 hp2
        exact hA4' p1 hp1 p2 hp2 s hs1 hs2
      obtain ⟨hmem, huniq, hdep, hwf⟩ :=
        ih _ provided1 (multiAdd reqs item) G h hA1'' hA2'' hA3'' hA4'' hA5' hA6'
      refine ⟨?_, huniq, hdep, hwf⟩
      intro x
      rw [hmem x, hnodes3', List.mem_cons]
      tauto

/-- The edge relation of a digraph. -/
def EdgeRel (G : DiGraph) (a b : Item) : Prop := (a, b) ∈ G.edges

theorem is_dag_iff (G : DiGraph) (hwf : WFG G) :
    is_directed_acyclic_graph G = true ↔
      ¬∃ n : Item, Relation.TransGen (EdgeRel G) n n := by
  unfold is_directed_acyclic_graph
  rw [List.all_eq_true]
  constructor
  · rintro h ⟨n, hn⟩
    rcases Relation.TransGen.head'_iff.mp hn with ⟨b, hstep, hp⟩
    have hnn : n ∈ G.nodes := (hwf (n, b) hstep).1
    have hn' := h n hnn
    simp only [decide_eq_true_iff] at hn'
    apply hn'
    rw [mem_closureFrom]
    exact ⟨b, mem_adjacents.mpr hstep, hp⟩
  · intro h n hn
    simp only [decide_eq_true_iff]
    intro hmem
    rw [mem_closureFrom] at hmem
    rcases hmem with ⟨f, hf, hp⟩
    exact h ⟨n, Relation.TransGen.head'_iff.mpr ⟨f, mem_adjacents.mp hf, hp⟩⟩

theorem swapG_cases {f : GFlow} {tmp : DiGraph} {f' : GFlow} {e : Option FlowErr}
    (h : f.swapG tmp = (f', e)) :
    (e = none ∧ f'.graph = tmp ∧ is_directed_acyclic_graph tmp = true) ∨
    (e = some FlowErr.DependencyFailure ∧ f' = f) := by
  unfold GFlow.swapG at h
  by_cases hc : is_directed_acyclic_graph tmp = true
  · rw [if_pos hc] at h
    injection h with h1 h2
    exact Or.inl ⟨h2.symm, by rw [← h1], hc⟩
  · rw [if_neg hc] at h
    injection h with h1 h2
    exact Or.inr ⟨h2.symm, h1.symm⟩

theorem link_cases {f : GFlow} {u v : Item} {f' : GFlow} {e : Option FlowErr}
    (h : f.link u v = (f', e)) :
    f' = f ∨
    (f'.graph = f.graph.add_edge u v ∧
      is_directed_acyclic_graph f'.graph = true ∧
      u ∈ f.graph.nodes ∧ v ∈ f.graph.nodes) := by
  unfold GFlow.link at h
  by_cases h1 : f.graph.has_node u = true
  · rw [if_neg (not_not_intro h1)] at h
    by_cases h2 : f.graph.has_node v = true
    · rw [if_neg (not_not_intro h2)] at h
      by_cases h3 : f.graph.has_edge u v = true
      · rw [if_pos h3] at h
        injection h with ha _
        exact Or.inl ha.symm
      · rw [if_neg h3] at h
        rcases swapG_cases h with ⟨_, hg, hdag⟩ | ⟨_, hf⟩
        · right
          refine ⟨hg, by rw [hg]; exact hdag, ?_, ?_⟩
          · unfold DiGraph.has_node at h1
            simpa using h1
          · unfold DiGraph.has_node at h2
            simpa using h2
        · exact Or.inl hf
    · rw [if_pos h2] at h
      injection h with ha _
      exact Or.inl ha.symm
  · rw [if_pos h1] at h
    injection h with ha _
    exact Or.inl ha.symm

theorem link_err_atomic {f : GFlow} {u v : Item} {f' : GFlow} {e : FlowErr}
    (h : f.link u v = (f', some e)) : f' = f := by
  unfold GFlow.link at h
  by_cases h1 : f.graph.has_node u = true
  · rw [if_neg (not_not_intro h1)] at h
    by_cases h2 : f.graph.has_node v = true
    · rw [if_neg (not_not_intro h2)] at h
      by_cases h3 : f.graph.has_edge u v = true
      · rw [if_pos h3] at h
        injection h with _ hb
        cases hb
      · rw [if_neg h3] at h
        rcases swapG_cases h with ⟨hnone, _, _⟩ | ⟨_, hf⟩
        · cases hnone
        · exact hf
    · rw [if_pos h2] at h
      injection h with ha _
      exact ha.symm
  · rw [if_pos h1] at h
    injection h with ha _
    exact ha.symm

theorem add_err_atomic {f : GFlow} {items : List Item} {f' : GFlow} {e : FlowErr}
    (h : f.add items = (f', some e)) : f' = f := by
  unfold GFlow.add at h
  by_cases hempty : items.filter (fun i => !(f.graph.has_node i)) = []
  · rw [if_pos hempty] at h
    injection h with _ hb
    cases hb
  · rw [if_neg hempty] at h
    cases hloop : addLoop f.graph (initProvided f) (initRequirements f)
        (items.filter (fun i => !(f.graph.has_node i))) with
    | error err =>
      rw [hloop] at h
      injection h with ha _
      exact ha.symm
    | ok G =>
      rw [hloop] at h
      rcases swapG_cases h with ⟨hnone, _, _⟩ | ⟨_, hf⟩
      · cases hnone
      · exact hf

theorem add_cases {f : GFlow} {items : List Item} {f' : GFlow} {e : Option FlowErr}
    (h : f.add items = (f', e)) :
    f' = f ∨
    ∃ G, addLoop f.graph (initProvided f) (initRequirements f)
        (items.filter (fun i => !(f.graph.has_node i))) = Except.ok G ∧
      f'.graph = G ∧ is_directed_acyclic_graph G = true := by
  unfold GFlow.add at h
  by_cases hempty : items.filter (fun i => !(f.graph.has_node i)) = []
  · simp only [hempty, if_pos] at h
    injection h with ha _
    exact Or.inl ha.symm
  · simp only [if_neg hempty] at h
    cases hloop : addLoop f.graph (initProvided f) (initRequirements f)
        (items.filter (fun i => !(f.graph.has_node i))) with
    | error err =>
      rw [hloop] at h
      injection h with ha _
      exact Or.inl ha.symm
    | ok G =>
      rw [hloop] at h
      rcases swapG_cases h with ⟨_, hg, hdag⟩ | ⟨_, hf⟩
      · exact Or.inr ⟨G, rfl, hg, hdag⟩
      · exact Or.inl hf

theorem initProvided_sound (f : GFlow) :
    ∀ s p, dictLookup (initProvided f) s = some p →
      p ∈ f.graph.nodes ∧ s ∈ p.provides := by
  intro s p hp
  rcases initProvided_fold_sound f.graph.nodes [] s p hp with ⟨h1, h2⟩ | h
  · exact ⟨h1, h2⟩
  · cases h

theorem initProvided_cover (f : GFlow) :
    ∀ p ∈ f.graph.nodes, ∀ s ∈ p.provides,
      (dictLookup (initProvided f) s).isSome = true := by
  intro p hp s hs
  exact initProvided_fold_cover f.graph.nodes [] p s hp hs

theorem initRequirements_spec (f : GFlow) :
    ∀ s c, c ∈ multiGet (initRequirements f) s ↔
      (c ∈ f.graph.nodes ∧ s ∈ c.requires) := by
  intro s c
  rw [show initRequirements f = f.graph.nodes.foldl multiAdd [] from rfl,
    initReq_fold]
  constructor
  · rintro (h | h)
    · cases h
    · exact h
  · exact Or.inr

/-- The structural invariant of every reachable graph flow: a well-formed,
acyclic graph with unique providers and all dependency edges installed. -/
theorem flowReachable_invariant {f : GFlow} (h : FlowReachable f) :
    WFG f.graph ∧ is_directed_acyclic_graph f.graph = true ∧
      UniqProv f.graph.nodes ∧ DepEdges f.graph := by
  induction h with
  | init =>
    refine ⟨?_, ?_, ?_, ?_⟩
    · intro e he
      cases he
    · rfl
    · intro p hp
      cases hp
    · intro p hp
      cases hp
  | link hr hlink ih =>
    obtain ⟨hwf, hdag, huniq, hdep⟩ := ih
    rcases link_cases hlink with heq | ⟨hg, hdag', hu, hv⟩
    · rw [heq]
      exact ⟨hwf, hdag, huniq, hdep⟩
    · rename_i f0 f' u v e
      have hnodes : f'.graph.nodes = f0.graph.nodes := by
        rw [hg]
        exact add_edge_nodes_of_mem _ _ _ hu hv
      refine ⟨?_, hdag', ?_, ?_⟩
      · intro ed hed
        rw [hg] at hed
        rcases (add_edge_edges _ _ _ ed).mp hed with hed' | heq'
        · obtain ⟨ha, hb⟩ := hwf ed hed'
          rw [hnodes]
          exact ⟨ha, hb⟩
        · subst heq'
          rw [hnodes]
          exact ⟨hu, hv⟩
      · rw [hnodes]
        exact huniq
      · intro p hp c hc s hsp hsc
        rw [hnodes] at hp hc
        rw [hg]
        exact (add_edge_edges _ _ _ (p, c)).mpr (Or.inl (hdep p hp c hc s hsp hsc))
  | add hr hadd ih =>
    obtain ⟨hwf, hdag, huniq, hdep⟩ := ih
    rcases add_cases hadd with heq | ⟨G, hloop, hg, hdag'⟩
    · rw [heq]
      exact ⟨hwf, hdag, huniq, hdep⟩
    · rename_i f0 f' items e
      obtain ⟨hmem, huniq', hdep', hwf'⟩ := addLoop_spec _ f0.graph
        (initProvided f0) (initRequirements f0) G hloop
        (initProvided_sound f0) (initProvided_cover f0)
        (initRequirements_spec f0) huniq hdep hwf
      rw [hg]
      exact ⟨hwf', hdag', huniq', hdep'⟩

/-- **C7.** Graph flows follow copy-validate-swap: every flow reachable
through any sequence of `link`/`add` calls has an acyclic graph (no node
reaches itself through a nonempty edge path), and whenever `link` or `add`
raises `DependencyFailure` the resulting flow state is exactly the state
before the call. -/
theorem graph_flow_copy_validate_swap (f : GFlow) (u v : Item)
    (items : List Item) (f1 f2 : GFlow) :
    (FlowReachable f → ¬∃ n : Item, Relation.TransGen (EdgeRel f.graph) n n) ∧
    (f.link u v = (f1, some FlowErr.DependencyFailure) → f1 = f) ∧
    (f.add items = (f2, some FlowErr.DependencyFailure) → f2 = f) := by
  refine ⟨?_, ?_, ?_⟩
  · intro h
    obtain ⟨hwf, hdag, _, _⟩ := flowReachable_invariant h
    exact (is_dag_iff f.graph hwf).mp hdag
  · exact link_err_atomic
  · exact add_err_atomic

/-- `UniqProv` is antitone in the node set. -/
theorem uniqProv_subset {l₁ l₂ : List Item} (hsub : ∀ x ∈ l₁, x ∈ l₂)
    (h : UniqProv l₂) : UniqProv l₁ := by
  intro p1 hp1 p2 hp2 s hs1 hs2
  exact h p1 (hsub p1 hp1) p2 (hsub p2 hp2) s hs1 hs2

/-- **C8.** A successful `Flow.add` guarantees unique providers across the
existing nodes and all items of the call (so a duplicate provider always
raises `DependencyFailure`), and the resulting flow links every provider to
every requirer of each symbol. -/
theorem add_providers_spec (f : GFlow) (items : List Item) (f' : GFlow)
    (hreach : FlowReachable f) (hok : f.add items = (f', none)) :
    UniqProv (f.graph.nodes ++ items.filter (fun i => !(f.graph.has_node i))) ∧
    UniqProv f'.graph.nodes ∧ DepEdges f'.graph := by
  obtain ⟨hwf, hdag, huniq, hdep⟩ := flowReachable_invariant hreach
  unfold GFlow.add at hok
  by_cases hempty : items.filter (fun i => !(f.graph.has_node i)) = []
  · rw [if_pos hempty] at hok
    injection hok with ha _
    rw [← ha, hempty, List.append_nil]
    exact ⟨huniq, huniq, hdep⟩
  · rw [if_neg hempty] at hok
    cases hloop : addLoop f.graph (initProvided f) (initRequirements f)
        (items.filter (fun i => !(f.graph.has_node i))) with
    | error err =>
      rw [hloop] at hok
      injection hok with _ hb
      cases hb
    | ok G =>
      rw [hloop] at hok
      rcases swapG_cases hok with ⟨_, hg, _⟩ | ⟨hsome, _⟩
      · obtain ⟨hmem, huniq', hdep', _⟩ := addLoop_spec _ f.graph
          (initProvided f) (initRequirements f) G hloop
          (initProvided_sound f) (initProvided_cover f)
          (initRequirements_spec f) huniq hdep hwf
        refine ⟨?_, by rw [hg]; exact huniq', by rw [hg]; exact hdep'⟩
        refine uniqProv_subset ?_ huniq'
        intro x hx
        rw [hmem x]
        exact (List.mem_append.mp hx).imp id id
      · cases hsome

/-- **C10.** `Flow.requires` is the union of the nodes' requires minus the
union of their provides; `Flow.provides` is the union of their provides;
consequently the two are disjoint. -/
theorem flow_requires_provides_spec (f : GFlow) (s : Nat) :
    (s ∈ f.requires ↔ ((∃ n ∈ f.graph.nodes, s ∈ n.requires) ∧
      ¬∃ n ∈ f.graph.nodes, s ∈ n.provides)) ∧
    (s ∈ f.provides ↔ ∃ n ∈ f.graph.nodes, s ∈ n.provides) ∧
    (s ∈ f.requires → s ∉ f.provides) := by
  have hprov : s ∈ f.provides ↔ ∃ n ∈ f.graph.nodes, s ∈ n.provides := by
    unfold GFlow.provides
    rw [List.mem_flatMap]
  have hreq : s ∈ f.requires ↔ ((∃ n ∈ f.graph.nodes, s ∈ n.requires) ∧
      ¬∃ n ∈ f.graph.nodes, s ∈ n.provides) := by
    unfold GFlow.requires
    rw [List.mem_filter, List.mem_flatMap]
    rw [decide_eq_true_iff]
    rw [hprov]
  refine ⟨hreq, hprov, ?_⟩
  intro h
  exact (hreq.mp h).2 ∘ hprov.mp

/-! ### Retry subflow preparation (`Runtime.retry_subflow`, claim C9) -/

/-- `storage.set_atom_state(name, state)`. -/
def set_atom_state (s : Storage) (n : Node) (st : St) : Storage :=
  { s with state := fun m => if m = n then st else s.state m }

/-- `storage.set_atom_intention(name, intention)`. -/
def set_atom_intention (s : Storage) (n : Node) (i : St) : Storage :=
  { s with intention := fun m => if m = n then i else s.intention m }

/-- Modelled from the spec: the per-kind `change_state` handler fetched from
the atom cache (`task_action.change_state` / `retry_action.change_state`,
modules not in the sampled source); it transitions the atom's state in
storage. -/
def change_state (s : Storage) (n : Node) (st : St) : Storage :=
  set_atom_state s n st

/-- `Runtime.reset_atoms(atoms, state, intention)`: for each atom, record a
tweak entry, apply the change-state handler when a state is given, and set
the intention when one is given. -/
def reset_atoms : Storage → List Node → Option St → Option St →
    List (Node × Option St × Option St) × Storage
  | s, [], _, _ => ([], s)
  | s, a :: rest, stO, intO =>
    let entry := if stO.isSome || intO.isSome then [(a, stO, intO)] else []
    let s1 := match stO with
      | some st => change_state s a st
      | none => s
    let s2 := match intO with
      | some i => set_atom_intention s1 a i
      | none => s1
    let r := reset_atoms s2 rest stO intO
    (entry ++ r.1, r.2)

/-- Modelled from the spec: `Analyzer.iterate_connected_atoms(atom)`, whose
definition is outside the sampled source; per `Runtime.reset_subgraph`'s
docstring the subgraph "is contained of all of the atoms successors", so it
yields every atom reachable forward from the given atom. -/
def iterate_connected_atoms (g : Graph) (atom : Node) : List Node :=
  depth_first_iterate g atom Direction.FORWARD

/-- `Runtime.reset_subgraph(atom)`: reset all of the atom's successors. -/
def reset_subgraph (g : Graph) (s : Storage) (atom : Node) (stO intO : Option St) :
    List (Node × Option St × Option St) × Storage :=
  reset_atoms s (iterate_connected_atoms g atom) stO intO

/-- `Runtime.retry_subflow(retry)`: set the retry's intention to `EXECUTE`
(state untouched), then reset its subgraph to `PENDING` / `EXECUTE`. -/
def retry_subflow (g : Graph) (s : Storage) (retry : Node) :
    List (Node × Option St × Option St) × Storage :=
  let r1 := reset_atoms s [retry] none (some St.EXECUTE)
  let r2 := reset_subgraph g r1.2 retry (some St.PENDING) (some St.EXECUTE)
  (r1.1 ++ r2.1, r2.2)

theorem reset_atoms_state (stO intO : Option St) :
    ∀ (atoms : List Node) (s : Storage) (n : Node),
      (reset_atoms s atoms stO intO).2.state n =
        match stO with
        | some st => if n ∈ atoms then st else s.state n
        | none => s.state n := by
  intro atoms
  induction atoms with
  | nil =>
    intro s n
    cases stO <;> simp [reset_atoms]
  | cons a rest ih =>
    intro s n
    cases stO with
    | none =>
      cases intO with
      | none =>
        rw [reset_atoms]
        exact ih s n
      | some i =>
        rw [reset_atoms]
        simp only []
        rw [ih (set_atom_intention s a i) n]
        rfl
    | some st =>
      cases intO with
      | none =>
        rw [reset_atoms]
        simp only []
        rw [ih (change_state s a st) n]
        by_cases hn : n ∈ a :: rest
        · rcases List.mem_cons.mp hn with rfl | hn'
          · by_cases hr : n ∈ rest
            · simp [hn, hr]
            · simp [hn, hr, change_state, set_atom_state]
          · simp [hn, hn']
        · have hna : n ≠ a := fun h => hn (h ▸ List.mem_cons_self a rest)
          have hnr : n ∉ rest := fun h => hn (List.mem_cons_of_mem a h)
          simp [hn, hnr, change_state, set_atom_state, hna]
      | some i =>
        rw [reset_atoms]
        simp only []
        rw [ih (set_atom_intention (change_state s a st) a i) n]
        by_cases hn : n ∈ a :: rest
        · rcases List.mem_cons.mp hn with rfl | hn'
          · by_cases hr : n ∈ rest
            · simp [hn, hr]
            · simp [hn, hr, change_state, set_atom_state, set_atom_intention]
          · simp [hn, hn']
        · have hna : n ≠ a := fun h => hn (h ▸ List.mem_cons_self a rest)
          have hnr : n ∉ rest := fun h => hn (List.mem_cons_of_mem a h)
          simp [hn, hnr, change_state, set_atom_state, set_atom_intention, hna]

theorem reset_atoms_intention (stO intO : Option St) :
    ∀ (atoms : List Node) (s : Storage) (n : Node),
      (reset_atoms s atoms stO intO).2.intention n =
        match intO with
        | some i => if n ∈ atoms then i else s.intention n
        | none => s.intention n := by
  intro atoms
  induction atoms with
  | nil =>
    intro s n
    cases intO <;> simp [reset_atoms]
  | cons a rest ih =>
    intro s n
    cases intO with
    | none =>
      cases stO with
      | none =>
        rw [reset_atoms]
        exact ih s n
      | some st =>
        rw [reset_atoms]
        simp only []
        rw [ih (change_state s a st) n]
        rfl
    | some i =>
      cases stO with
      | none =>
        rw [reset_atoms]
        simp only []
        rw [ih (set_atom_intention s a i) n]
        by_cases hn : n ∈ a :: rest
        · rcases List.mem_cons.mp hn with rfl | hn'
          · by_cases hr : n ∈ rest
            · simp [hn, hr]
            · simp [hn, hr, set_atom_intention]
          · simp [hn, hn']
        · have hna : n ≠ a := fun h => hn (h ▸ List.mem_cons_self a rest)
          have hnr : n ∉ rest := fun h => hn (List.mem_cons_of_mem a h)
          simp [hn, hnr, set_atom_intention, hna]
      | some st =>
        rw [reset_atoms]
        simp only []
        rw [ih (set_atom_intention (change_state s a st) a i) n]
        by_cases hn : n ∈ a :: rest
        · rcases List.mem_cons.mp hn with rfl | hn'
          · by_cases hr : n ∈ rest
            · simp [hn, hr]
            · simp [hn, hr, change_state, set_atom_state, set_atom_intention]
          · simp [hn, hn']
        · have hna : n ≠ a := fun h => hn (h ▸ List.mem_cons_self a rest)
          have hnr : n ∉ rest := fun h => hn (List.mem_cons_of_mem a h)
          simp [hn, hnr, change_state, set_atom_state, set_atom_intention, hna]

/-- **C9.** `Runtime.retry_subflow` sets the retry's stored intention to
`EXECUTE` while leaving its stored state unchanged, resets every atom of the
retry's subgraph (its transitive successors) to state `PENDING` with
intention `EXECUTE`, and modifies no atom outside the retry and its
subgraph. -/
theorem retry_subflow_spec (g : Graph) (s : Storage) (retry : Node)
    (hdag : ¬ ReachableFwd g retry retry) :
    ((retry_subflow g s retry).2.intention retry = St.EXECUTE) ∧
    ((retry_subflow g s retry).2.state retry = s.state retry) ∧
    (∀ a ∈ iterate_connected_atoms g retry,
      (retry_subflow g s retry).2.state a = St.PENDING ∧
      (retry_subflow g s retry).2.intention a = St.EXECUTE) ∧
    (∀ n, n ≠ retry → n ∉ iterate_connected_atoms g retry →
      (retry_subflow g s retry).2.state n = s.state n ∧
      (retry_subflow g s retry).2.intention n = s.intention n) := by
  have hnr : retry ∉ iterate_connected_atoms g retry := by
    intro hmem
    unfold iterate_connected_atoms at hmem
    exact hdag (mem_depth_first_iterate.mp hmem).1
  have hstate : ∀ n, (retry_subflow g s retry).2.state n =
      if n ∈ iterate_connected_atoms g retry then St.PENDING else s.state n := by
    intro n
    unfold retry_subflow reset_subgraph
    rw [reset_atoms_state (some St.PENDING) (some St.EXECUTE)]
    simp only []
    by_cases hn : n ∈ iterate_connected_atoms g retry
    · simp [hn]
    · simp only [if_neg hn]
      rw [reset_atoms_state none (some St.EXECUTE)]
  have hint : ∀ n, (retry_subflow g s retry).2.intention n =
      if n ∈ iterate_connected_atoms g retry then St.EXECUTE
      else if n = retry then St.EXECUTE else s.intention n := by
    intro n
    unfold retry_subflow reset_subgraph
    rw [reset_atoms_intention (some St.PENDING) (some St.EXECUTE)]
    simp only []
    by_cases hn : n ∈ iterate_connected_atoms g retry
    · simp [hn]
    · simp only [if_neg hn]
      rw [reset_atoms_intention none (some St.EXECUTE)]
      simp only []
      by_cases hr : n = retry
      · simp [hr]
      · simp [hr]
  refine ⟨?_, ?_, ?_, ?_⟩
  · rw [hint retry]
    simp [hnr]
  · rw [hstate retry]
    simp [hnr]
  · intro a ha
    rw [hstate a, hint a]
    simp [ha]
  · intro n hne hnm
    rw [hstate n, hint n]
    simp [hne, hnm]

/-! ### Concrete instances -/

/-- A small execution graph: retry 4 → flow 3 → task 1 → task 2, with a
decider on the flow-to-task edge. -/
def gW : Graph :=
  { nodes := [(1, Kind.TASK), (2, Kind.TASK), (3, Kind.FLOW), (4, Kind.RETRY)],
    edges := [(1, 2), (3, 1), (4, 3)],
    ldeciders := [(3, 1, 7)] }

/-- An environment over `gW` where everything has succeeded and intends to
execute. -/
def envExecAll : Env :=
  { graph := gW,
    storage := { state := fun _ => St.SUCCESS, intention := fun _ => St.EXECUTE },
    check_transition := fun _ _ _ => true }

/-- An environment over `gW` where everything is pending and intends to
revert. -/
def envRevAll : Env :=
  { graph := gW,
    storage := { state := fun _ => St.PENDING, intention := fun _ => St.REVERT },
    check_transition := fun _ _ _ => true }

/-- An environment over `gW` where everything has succeeded and intends to
revert. -/
def envSR : Env :=
  { graph := gW,
    storage := { state := fun _ => St.SUCCESS, intention := fun _ => St.REVERT },
    check_transition := fun _ _ _ => true }

/-- A one-retry graph with no edges. -/
def gW9 : Graph :=
  { nodes := [(5, Kind.RETRY)], edges := [], ldeciders := [] }

/-- A storage snapshot for the retry example. -/
def sW9 : Storage :=
  { state := fun _ => St.FAILURE, intention := fun _ => St.RETRY }

/-- Witness for C1: in `envExecAll` every predecessor of atom 2 has state
`SUCCESS` and intention `EXECUTE`, so atom 2 is ready to execute. -/
theorem maybe_ready_execute_spec_witness :
    (get_maybe_ready_for_execute envExecAll 2).1 = true :=
  (maybe_ready_execute_spec envExecAll 2).1.mpr
    ⟨rfl, rfl, fun _ _ _ => ⟨Or.inl rfl, Or.inl rfl⟩⟩

/-- Witness for C2: in `envRevAll` every successor of atom 2 is `PENDING`,
so atom 2 is ready to revert. -/
theorem maybe_ready_revert_spec_witness :
    (get_maybe_ready_for_revert envRevAll 2).1 = true :=
  (maybe_ready_revert_spec envRevAll 2).1.mpr
    ⟨rfl, Or.inl rfl, fun _ _ _ => Or.inl rfl⟩

/-- Witness for C3: a seed in state `SUCCESS` with intention `REVERT` yields
exactly itself with a no-op decider. -/
theorem iter_next_atoms_spec_witness :
    iter_next_atoms envSR (some 1) = [(1, some Decider.NoOpDecider)] :=
  (iter_next_atoms_spec envSR 1).2.1 rfl rfl

/-- Witness for C4: on `gW` (where every edge endpoint is expandable) the
forward walk from atom 4 is ordered by nondecreasing depth. -/
theorem browse_seeded_traversal_spec_witness :
    (breadth_first_iterate envExecAll.graph 4 Direction.FORWARD true).Pairwise
      (NoDeeper envExecAll.graph.edges 4) :=
  (browse_seeded_traversal_spec envExecAll 4 (by decide)).2.1

/-- Witness for C5: the decider walk for atom 2 of `gW` processes no edge
pair twice. -/
theorem fetch_edge_deciders_spec_witness :
    (walkAux envExecAll.graph
      ((envExecAll.graph.preds 2).map (fun u => (u, 2))) []).Nodup :=
  (fetch_edge_deciders_spec envExecAll 2 (by decide) (by decide)).2.2

/-- Witness for C6: with every atom in `SUCCESS`, `is_success` holds. -/
theorem is_success_spec_witness : is_success envExecAll = true :=
  (is_success_spec envExecAll).mpr (fun _ _ _ => Or.inl rfl)

/-- Witness for C7: the empty flow is reachable, hence acyclic. -/
theorem graph_flow_copy_validate_swap_witness :
    ¬∃ n : Item, Relation.TransGen (EdgeRel GFlow.init.graph) n n :=
  (graph_flow_copy_validate_swap GFlow.init
      { name := 0, requires := [], provides := [] }
      { name := 0, requires := [], provides := [] } [] GFlow.init GFlow.init).1
    FlowReachable.init

/-- Witness for C8: adding nothing to the empty flow succeeds and the
provider-uniqueness and dependency-edge properties hold. -/
theorem add_providers_spec_witness :
    UniqProv (GFlow.init.graph.nodes ++
      List.filter (fun i => !(GFlow.init.graph.has_node i)) []) ∧
    UniqProv GFlow.init.graph.nodes ∧ DepEdges GFlow.init.graph :=
  add_providers_spec GFlow.init [] GFlow.init FlowReachable.init rfl

/-- Witness for C9: in the edgeless graph `gW9` the retry's intention is set
to `EXECUTE`. -/
theorem retry_subflow_spec_witness :
    (retry_subflow gW9 sW9 5).2.intention 5 = St.EXECUTE :=
  (retry_subflow_spec gW9 sW9 5 (fun h => by
    rcases Relation.TransGen.head'_iff.mp h with ⟨b, hstep, _⟩
    exact absurd hstep (List.not_mem_nil _))).1

/-- Witness for C10: the provides characterization at the empty flow. -/
theorem flow_requires_provides_spec_witness :
    0 ∈ GFlow.init.provides ↔ ∃ n ∈ GFlow.init.graph.nodes, 0 ∈ n.provides :=
  (flow_requires_provides_spec GFlow.init 0).2.1

end Taskflow
